import Mathlib

/-!
Verification of the piecewise-exponential parameter-curve core
(`source/parameter_curve.py`): a shallow embedding of
`ParameterCurveSegment` and `ParameterCurve` over the reals, with theorems
about evaluation, integration, splitting, mutation and serialization.

Python floats are modelled as real numbers; lazily cached integration
coefficients are modelled as derived functions (recomputation is
idempotent and observationally identical); exceptions and the two
unbounded loops are modelled with `Option` results and fuel.
-/

/-- One exponential (or linear) curve piece, mirroring
`ParameterCurveSegment.__init__`'s stored attributes.  The cached
integration coefficients `_A`, `_B` are derived data and appear below as
functions of the segment. -/
structure ParameterCurveSegment where
  start_time : ℝ
  end_time : ℝ
  start_level : ℝ
  end_level : ℝ
  curve_shape : ℝ

instance : Inhabited ParameterCurveSegment := ⟨⟨0, 0, 0, 0, 0⟩⟩

namespace ParameterCurveSegment

/-- `duration` property. -/
noncomputable def duration (s : ParameterCurveSegment) : ℝ := s.end_time - s.start_time

/-- The coefficient `_A` from `_calculate_coefficients` (exponential case). -/
noncomputable def coeffA (s : ParameterCurveSegment) : ℝ :=
  s.start_level - (s.end_level - s.start_level) / (Real.exp s.curve_shape - 1)

/-- The coefficient `_B` from `_calculate_coefficients` (exponential case). -/
noncomputable def coeffB (s : ParameterCurveSegment) : ℝ :=
  (s.end_level - s.start_level) / (s.curve_shape * (Real.exp s.curve_shape - 1))

/-- `ParameterCurveSegment.value_at`:  clip to the endpoint levels outside
`[start_time, end_time]` when `clip_at_boundary`, otherwise interpolate
linearly for `|curve_shape| < 1e-6` and exponentially otherwise. -/
noncomputable def value_at (s : ParameterCurveSegment) (t : ℝ)
    (clip_at_boundary : Bool := true) : ℝ :=
  if clip_at_boundary = true ∧ s.end_time ≤ t then s.end_level
  else if clip_at_boundary = true ∧ t ≤ s.start_time then s.start_level
  else
    let norm_t := (t - s.start_time) / (s.end_time - s.start_time)
    if |s.curve_shape| < 0.000001 then
      s.start_level + norm_t * (s.end_level - s.start_level)
    else
      s.start_level + (s.end_level - s.start_level) / (Real.exp s.curve_shape - 1) *
        (Real.exp (s.curve_shape * norm_t) - 1)

/-- The antiderivative `_segment_antiderivative` in normalized time. -/
noncomputable def segment_antiderivative (s : ParameterCurveSegment) (normalized_t : ℝ) : ℝ :=
  s.coeffA * normalized_t + s.coeffB * Real.exp (s.curve_shape * normalized_t)

/-- `ParameterCurveSegment.integrate_segment`: definite integral between two
absolute times inside the segment (trapezoid for the linear case, scaled
antiderivative difference for the exponential case). -/
noncomputable def integrate_segment (s : ParameterCurveSegment) (t1 t2 : ℝ) : ℝ :=
  if t1 = t2 then 0
  else
    let norm_t1 := (t1 - s.start_time) / (s.end_time - s.start_time)
    let norm_t2 := (t2 - s.start_time) / (s.end_time - s.start_time)
    if |s.curve_shape| < 0.000001 then
      (t2 - t1) *
        (((1 - norm_t1) * s.start_level + norm_t1 * s.end_level) +
         ((1 - norm_t2) * s.start_level + norm_t2 * s.end_level)) / 2
    else
      (s.end_time - s.start_time) *
        (s.segment_antiderivative norm_t2 - s.segment_antiderivative norm_t1)

/-- `ParameterCurveSegment.max_level`. -/
noncomputable def max_level (s : ParameterCurveSegment) : ℝ := max s.start_level s.end_level

/-- `ParameterCurveSegment.split_at`: mutate this segment into the first
half and create the second half, dividing the curve shape proportionally.
The mutation is modelled by returning the pair (first half, second half). -/
noncomputable def split_at (s : ParameterCurveSegment) (t : ℝ) :
    ParameterCurveSegment × ParameterCurveSegment :=
  let middle_level := s.value_at t
  let curve_shape_1 := (t - s.start_time) / (s.end_time - s.start_time) * s.curve_shape
  let curve_shape_2 := s.curve_shape - curve_shape_1
  ({ s with end_time := t, end_level := middle_level, curve_shape := curve_shape_1 },
   ⟨t, s.end_time, middle_level, s.end_level, curve_shape_2⟩)

/-- `ParameterCurveSegment.__contains__`: `start_time <= t < end_time`. -/
def containsTime (s : ParameterCurveSegment) (t : ℝ) : Prop :=
  s.start_time ≤ t ∧ t < s.end_time

noncomputable instance (s : ParameterCurveSegment) (t : ℝ) : Decidable (s.containsTime t) :=
  inferInstanceAs (Decidable (_ ∧ _))

end ParameterCurveSegment

/-- `ParameterCurve`: an ordered list of segments. -/
structure ParameterCurve where
  segments : List ParameterCurveSegment

namespace ParameterCurve

/-- `ParameterCurve.length`: `0` for an empty list, else the last
segment's end time. -/
noncomputable def length (c : ParameterCurve) : ℝ :=
  (c.segments.getLastD default).end_time

/-- `ParameterCurve.start_level`: the first segment's start level. -/
noncomputable def start_level (c : ParameterCurve) : ℝ :=
  c.segments.headI.start_level

/-- `ParameterCurve.end_level`: the last segment's end level. -/
noncomputable def end_level (c : ParameterCurve) : ℝ :=
  (c.segments.getLastD default).end_level

/-- The reversed-order scan inside `ParameterCurve.value_at`: the first
segment (scanning from the end) containing `t` reports its value, and the
fallback is `end_level`. -/
noncomputable def value_at_scan (endLvl t : ℝ) : List ParameterCurveSegment → ℝ
  | [] => endLvl
  | s :: rest =>
      if s.start_time ≤ t ∧ t < s.end_time then s.value_at t else value_at_scan endLvl t rest

/-- `ParameterCurve.value_at`: `start_level` for negative `t`, otherwise
scan the segments from the end and fall back to `end_level`. -/
noncomputable def value_at (c : ParameterCurve) (t : ℝ) : ℝ :=
  if t < 0 then c.start_level else value_at_scan c.end_level t c.segments.reverse

/-- `ParameterCurve.max_level` with `t_range=None`: the maximum of the
segments' `max_level`s (Python's `max` over a non-empty generator). -/
noncomputable def max_level (c : ParameterCurve) : ℝ :=
  match c.segments with
  | [] => 0
  | s :: rest => rest.foldl (fun m x => max m x.max_level) s.max_level

end ParameterCurve

/-- The contiguity chain: starting from expected time `t`, each segment
starts at `t`, has non-negative duration, and hands its end time to the
next segment.  Together with non-emptiness (at `t = 0`) this is the
curve's structural invariant from the spec's data model: segments sorted
by start time, adjacent end/start times equal, first start time `0`, and
each segment satisfying `start_time <= end_time`. -/
def chainFrom : ℝ → List ParameterCurveSegment → Prop
  | _, [] => True
  | t, s :: rest => s.start_time = t ∧ s.start_time ≤ s.end_time ∧ chainFrom s.end_time rest

/-- The structural invariant of a `ParameterCurve`. -/
def ParameterCurve.Invariant (c : ParameterCurve) : Prop :=
  c.segments ≠ [] ∧ chainFrom 0 c.segments

/-- The accumulated end time of a chain. -/
noncomputable def chainEnd : ℝ → List ParameterCurveSegment → ℝ
  | t, [] => t
  | _, s :: rest => chainEnd s.end_time rest

lemma chainFrom_append {τ : ℝ} {xs ys : List ParameterCurveSegment} :
    chainFrom τ (xs ++ ys) ↔ chainFrom τ xs ∧ chainFrom (chainEnd τ xs) ys := by
  induction xs generalizing τ with
  | nil => simp [chainFrom, chainEnd]
  | cons s rest ih =>
      simp only [List.cons_append, chainFrom, chainEnd, List.append_eq]
      rw [ih]
      tauto

lemma chainEnd_append {τ : ℝ} {xs ys : List ParameterCurveSegment} :
    chainEnd τ (xs ++ ys) = chainEnd (chainEnd τ xs) ys := by
  induction xs generalizing τ with
  | nil => rfl
  | cons s rest ih => simp [chainEnd, ih]

lemma chainFrom_le_chainEnd {τ : ℝ} {segs : List ParameterCurveSegment}
    (h : chainFrom τ segs) : τ ≤ chainEnd τ segs := by
  induction segs generalizing τ with
  | nil => simp [chainEnd]
  | cons s rest ih =>
      obtain ⟨hst, hdur, hrest⟩ := h
      calc τ = s.start_time := hst.symm
        _ ≤ s.end_time := hdur
        _ ≤ chainEnd s.end_time rest := ih hrest

lemma chainFrom_start_ge {τ : ℝ} {segs : List ParameterCurveSegment}
    (h : chainFrom τ segs) : ∀ s ∈ segs, τ ≤ s.start_time := by
  induction segs generalizing τ with
  | nil => simp
  | cons s rest ih =>
      obtain ⟨hst, hdur, hrest⟩ := h
      intro r hr
      rcases List.mem_cons.mp hr with hr | hr
      · subst hr; simp [← hst]
      · calc τ = s.start_time := hst.symm
          _ ≤ s.end_time := hdur
          _ ≤ r.start_time := ih hrest r hr

lemma chainFrom_dur {τ : ℝ} {segs : List ParameterCurveSegment}
    (h : chainFrom τ segs) : ∀ s ∈ segs, s.start_time ≤ s.end_time := by
  induction segs generalizing τ with
  | nil => simp
  | cons s rest ih =>
      obtain ⟨_, hdur, hrest⟩ := h
      intro r hr
      rcases List.mem_cons.mp hr with hr | hr
      · subst hr; exact hdur
      · exact ih hrest r hr

lemma chainFrom_end_le {τ : ℝ} {segs : List ParameterCurveSegment}
    (h : chainFrom τ segs) : ∀ s ∈ segs, s.end_time ≤ chainEnd τ segs := by
  induction segs generalizing τ with
  | nil => simp
  | cons s rest ih =>
      obtain ⟨hst, hdur, hrest⟩ := h
      intro r hr
      rcases List.mem_cons.mp hr with hr | hr
      · subst hr; exact chainFrom_le_chainEnd hrest
      · simpa [chainEnd] using ih hrest r hr

lemma chainEnd_eq_getLast {τ : ℝ} {segs : List ParameterCurveSegment}
    (h : segs ≠ []) : chainEnd τ segs = (segs.getLastD default).end_time := by
  induction segs generalizing τ with
  | nil => exact absurd rfl h
  | cons s rest ih =>
      cases rest with
      | nil => simp [chainEnd]
      | cons r rs =>
          have := ih (τ := s.end_time) (by simp)
          simpa [chainEnd] using this

lemma ParameterCurve.length_nonneg {c : ParameterCurve} (h : c.Invariant) : 0 ≤ c.length := by
  obtain ⟨hne, hchain⟩ := h
  have := chainFrom_le_chainEnd hchain
  rwa [chainEnd_eq_getLast hne] at this

lemma ParameterCurve.ends_le_length {c : ParameterCurve} (h : c.Invariant) :
    ∀ s ∈ c.segments, s.end_time ≤ c.length := by
  obtain ⟨hne, hchain⟩ := h
  intro s hs
  have := chainFrom_end_le hchain s hs
  rwa [chainEnd_eq_getLast hne] at this

lemma ParameterCurve.value_at_scan_of_not_mem {endLvl t : ℝ} {segs : List ParameterCurveSegment}
    (h : ∀ s ∈ segs, ¬(s.start_time ≤ t ∧ t < s.end_time)) :
    ParameterCurve.value_at_scan endLvl t segs = endLvl := by
  induction segs with
  | nil => rfl
  | cons s rest ih =>
      rw [value_at_scan, if_neg (h s (by simp))]
      exact ih fun r hr => h r (by simp [hr])

lemma ParameterCurve.value_at_scan_append_of_not_mem {endLvl t : ℝ} {xs ys : List ParameterCurveSegment}
    (h : ∀ s ∈ xs, ¬(s.start_time ≤ t ∧ t < s.end_time)) :
    ParameterCurve.value_at_scan endLvl t (xs ++ ys) = ParameterCurve.value_at_scan endLvl t ys := by
  induction xs with
  | nil => rfl
  | cons s rest ih =>
      rw [List.cons_append, value_at_scan, if_neg (h s (by simp))]
      exact ih fun r hr => h r (by simp [hr])

lemma ParameterCurve.value_at_scan_append_congr {endLvl t : ℝ} {xs l1 l2 : List ParameterCurveSegment}
    (h : ParameterCurve.value_at_scan endLvl t l1 = ParameterCurve.value_at_scan endLvl t l2) :
    ParameterCurve.value_at_scan endLvl t (xs ++ l1) = ParameterCurve.value_at_scan endLvl t (xs ++ l2) := by
  induction xs with
  | nil => simpa using h
  | cons s rest ih =>
      by_cases hc : s.start_time ≤ t ∧ t < s.end_time
      · simp [value_at_scan, hc]
      · simpa [value_at_scan, hc] using ih

lemma ParameterCurveSegment.value_at_end_time (s : ParameterCurveSegment) :
    s.value_at s.end_time = s.end_level := by
  simp [ParameterCurveSegment.value_at]

lemma ParameterCurveSegment.value_at_start_time {s : ParameterCurveSegment}
    (h : s.start_time < s.end_time) : s.value_at s.start_time = s.start_level := by
  rw [ParameterCurveSegment.value_at, if_neg (by simp [not_le.mpr h]), if_pos (by simp)]

lemma ParameterCurve.value_at_length {c : ParameterCurve} (h : c.Invariant) :
    c.value_at c.length = c.end_level := by
  rw [ParameterCurve.value_at, if_neg (not_lt.mpr (c.length_nonneg h))]
  exact ParameterCurve.value_at_scan_of_not_mem fun s hs hmem =>
    absurd hmem.2 (not_lt.mpr (c.ends_le_length h s (List.mem_reverse.mp hs)))

lemma ParameterCurve.value_at_zero {c : ParameterCurve} (h : c.Invariant)
    (hpos : c.segments.headI.start_time < c.segments.headI.end_time) :
    c.value_at 0 = c.start_level := by
  obtain ⟨segs⟩ := c
  obtain ⟨hne, hchain⟩ := h
  cases segs with
  | nil => exact absurd rfl hne
  | cons f rest => ?_
  obtain ⟨hf0, hfd, hrest⟩ := hchain
  simp only [ParameterCurve.mk.injEq, List.headI] at hpos ⊢
  rw [ParameterCurve.value_at, if_neg (by norm_num), List.reverse_cons,
    ParameterCurve.value_at_scan_append_of_not_mem (fun s hs hmem => ?_),
    ParameterCurve.value_at_scan, if_pos ⟨le_of_eq hf0, hf0 ▸ hpos⟩,
    ParameterCurve.start_level]
  · simp only [List.headI]
    rw [ParameterCurveSegment.value_at, if_neg, if_pos (by simp [hf0])]
    simp [not_le.mpr (hf0 ▸ hpos)]
  · have : f.end_time ≤ s.start_time :=
      chainFrom_start_ge hrest s (List.mem_reverse.mp hs)
    have h0 : (0:ℝ) < s.start_time := lt_of_lt_of_le (hf0 ▸ hpos) this
    exact absurd hmem.1 (not_le.mpr h0)

/-- **C2.** For every curve satisfying the structural invariant,
`value_at(length)` equals `end_level()`, and `value_at(0)` equals
`start_level()` *provided the first segment has positive duration*.  (The
unrestricted claim is refuted by `C2_counterexample`: a zero-length jump
segment at time 0 makes the reversed scan report the following segment's
start level instead.) -/
theorem C2_endpoint_evaluation (c : ParameterCurve) (h : c.Invariant) :
    c.value_at c.length = c.end_level ∧
    (c.segments.headI.start_time < c.segments.headI.end_time →
      c.value_at 0 = c.start_level) :=
  ⟨ParameterCurve.value_at_length h, fun hpos => ParameterCurve.value_at_zero h hpos⟩

/-- A curve with a zero-length jump segment at time 0: segments
`(0,0, 0→1)` then `(0,1, 1→2)`. -/
noncomputable def c2jump : ParameterCurve := ⟨[⟨0, 0, 0, 1, 0⟩, ⟨0, 1, 1, 2, 0⟩]⟩

/-- **C2, counterexample.** `c2jump` satisfies the structural invariant but
`value_at(0) = 1 ≠ 0 = start_level()`: the claim `c.value_at(0) ==
c.start_level()` fails for curves containing zero-length jump segments. -/
theorem C2_counterexample : c2jump.Invariant ∧ c2jump.value_at 0 ≠ c2jump.start_level := by
  refine ⟨⟨by simp [c2jump], by norm_num [c2jump, chainFrom]⟩, ?_⟩
  norm_num [c2jump, ParameterCurve.value_at, ParameterCurve.value_at_scan,
    ParameterCurve.start_level, ParameterCurveSegment.value_at]

/-- Witness for `C2_endpoint_evaluation` at the concrete one-segment curve
`(0,1, 3→4)`. -/
theorem C2_endpoint_evaluation_witness :
    (ParameterCurve.mk [⟨0, 1, 3, 4, 0⟩]).Invariant ∧
      ((ParameterCurve.mk [⟨0, 1, 3, 4, 0⟩]).value_at (ParameterCurve.mk [⟨0, 1, 3, 4, 0⟩]).length =
        (ParameterCurve.mk [⟨0, 1, 3, 4, 0⟩]).end_level ∧
      ((ParameterCurve.mk [⟨0, 1, 3, 4, 0⟩]).segments.headI.start_time <
          (ParameterCurve.mk [⟨0, 1, 3, 4, 0⟩]).segments.headI.end_time →
        (ParameterCurve.mk [⟨0, 1, 3, 4, 0⟩]).value_at 0 =
          (ParameterCurve.mk [⟨0, 1, 3, 4, 0⟩]).start_level)) := by
  have hinv : (ParameterCurve.mk [⟨0, 1, 3, 4, 0⟩]).Invariant :=
    ⟨by simp, by norm_num [chainFrom]⟩
  exact ⟨hinv, C2_endpoint_evaluation _ hinv⟩

/-- The per-segment summation loop of `ParameterCurve.integrate_interval`
(lines 255-273), including its early `break`s. -/
noncomputable def segment_scan (t1 t2 : ℝ) : List ParameterCurveSegment → ℝ
  | [] => 0
  | s :: rest =>
      if t1 < s.start_time then
        if t2 > s.start_time then
          if t2 ≤ s.end_time then s.integrate_segment s.start_time t2
          else s.integrate_segment s.start_time s.end_time + segment_scan t1 t2 rest
        else segment_scan t1 t2 rest
      else if s.start_time ≤ t1 ∧ t1 < s.end_time then
        if s.start_time ≤ t2 ∧ t2 < s.end_time then s.integrate_segment t1 t2
        else s.integrate_segment t1 s.end_time + segment_scan t1 t2 rest
      else segment_scan t1 t2 rest

/-- An antiderivative (in absolute time) of a segment's interpolation
function, chosen so that `integrate_segment t1 t2 = segAnti t2 - segAnti t1`. -/
noncomputable def segAnti (s : ParameterCurveSegment) (t : ℝ) : ℝ :=
  if |s.curve_shape| < 0.000001 then
    s.start_level * t +
      (s.end_level - s.start_level) * (t - s.start_time) ^ 2 / (2 * (s.end_time - s.start_time))
  else
    (s.end_time - s.start_time) *
      s.segment_antiderivative ((t - s.start_time) / (s.end_time - s.start_time))

lemma ParameterCurveSegment.integrate_segment_eq_sub (s : ParameterCurveSegment) (t1 t2 : ℝ) :
    s.integrate_segment t1 t2 = segAnti s t2 - segAnti s t1 := by
  rw [ParameterCurveSegment.integrate_segment]
  by_cases h12 : t1 = t2
  · simp [h12]
  rw [if_neg h12]
  by_cases hlin : |s.curve_shape| < 0.000001
  · rw [if_pos hlin]
    unfold segAnti
    rw [if_pos hlin, if_pos hlin]
    by_cases hd : s.end_time - s.start_time = 0
    · rw [hd]
      simp only [div_zero, mul_zero, zero_mul, add_zero, mul_comm]
      ring
    · field_simp
      ring
  · rw [if_neg hlin]
    unfold segAnti
    rw [if_neg hlin, if_neg hlin]
    ring

lemma ParameterCurveSegment.integrate_segment_additive (s : ParameterCurveSegment) (x y z : ℝ) :
    s.integrate_segment x z = s.integrate_segment x y + s.integrate_segment y z := by
  rw [s.integrate_segment_eq_sub x z, s.integrate_segment_eq_sub x y,
    s.integrate_segment_eq_sub y z]
  ring

/-- The contribution of one segment to the integral over `[a, c]`: the
definite integral over the clamped intersection, `0` when disjoint. This
is what each loop iteration of `integrate_interval` adds for a segment. -/
noncomputable def seg_contrib (s : ParameterCurveSegment) (a c : ℝ) : ℝ :=
  if max a s.start_time ≤ min c s.end_time then
    s.integrate_segment (max a s.start_time) (min c s.end_time)
  else 0

lemma seg_contrib_eq_clamp {s : ParameterCurveSegment} {a c : ℝ}
    (hd : s.start_time ≤ s.end_time) (hac : a ≤ c) :
    seg_contrib s a c =
      segAnti s (min (max c s.start_time) s.end_time) -
        segAnti s (min (max a s.start_time) s.end_time) := by
  rw [seg_contrib]
  by_cases hcs : c < s.start_time
  · have has : a < s.start_time := lt_of_le_of_lt hac hcs
    have hcond : ¬ (max a s.start_time ≤ min c s.end_time) := by
      push_neg
      calc min c s.end_time ≤ c := min_le_left _ _
        _ < s.start_time := hcs
        _ ≤ max a s.start_time := le_max_right _ _
    rw [if_neg hcond, max_eq_right hcs.le, max_eq_right has.le, min_eq_left hd, sub_self]
  · push_neg at hcs
    by_cases hae : s.end_time < a
    · have hce : s.end_time < c := lt_of_lt_of_le hae hac
      have hcond : ¬ (max a s.start_time ≤ min c s.end_time) := by
        push_neg
        calc min c s.end_time ≤ s.end_time := min_le_right _ _
          _ < a := hae
          _ ≤ max a s.start_time := le_max_left _ _
      rw [if_neg hcond, max_eq_left (hd.trans hae.le), min_eq_right hae.le,
        max_eq_left (hd.trans hce.le), min_eq_right hce.le, sub_self]
    · push_neg at hae
      have hcond : max a s.start_time ≤ min c s.end_time :=
        max_le (le_min hac hae) (le_min hcs hd)
      rw [if_pos hcond, s.integrate_segment_eq_sub]
      congr 2
      · rw [max_eq_left hcs]
      · exact (min_eq_left (hcond.trans (min_le_right _ _))).symm

lemma seg_contrib_additive {s : ParameterCurveSegment} {a b c : ℝ}
    (hd : s.start_time ≤ s.end_time) (hab : a ≤ b) (hbc : b ≤ c) :
    seg_contrib s a c = seg_contrib s a b + seg_contrib s b c := by
  rw [seg_contrib_eq_clamp hd (le_trans hab hbc), seg_contrib_eq_clamp hd hab,
    seg_contrib_eq_clamp hd hbc]
  ring

lemma seg_contrib_zero_of_le_start {s : ParameterCurveSegment} {a c : ℝ}
    (h : c ≤ s.start_time) : seg_contrib s a c = 0 := by
  rw [seg_contrib]
  by_cases hcond : max a s.start_time ≤ min c s.end_time
  · have h1 : min c s.end_time ≤ max a s.start_time :=
      le_trans (min_le_left _ _) (le_trans h (le_max_right _ _))
    rw [if_pos hcond, le_antisymm hcond h1, ParameterCurveSegment.integrate_segment,
      if_pos rfl]
  · exact if_neg hcond

lemma seg_contrib_zero_of_end_le {s : ParameterCurveSegment} {a c : ℝ}
    (h : s.end_time ≤ a) : seg_contrib s a c = 0 := by
  rw [seg_contrib]
  by_cases hcond : max a s.start_time ≤ min c s.end_time
  · have h1 : min c s.end_time ≤ max a s.start_time :=
      le_trans (min_le_right _ _) (le_trans h (le_max_left _ _))
    rw [if_pos hcond, le_antisymm hcond h1, ParameterCurveSegment.integrate_segment,
      if_pos rfl]
  · exact if_neg hcond

lemma sum_seg_contrib_zero {t1 t2 τ : ℝ} {segs : List ParameterCurveSegment}
    (hchain : chainFrom τ segs) (h : t2 ≤ τ) :
    (segs.map fun s => seg_contrib s t1 t2).sum = 0 := by
  refine List.sum_eq_zero fun x hx => ?_
  obtain ⟨s, hs, rfl⟩ := List.mem_map.mp hx
  exact seg_contrib_zero_of_le_start (le_trans h (chainFrom_start_ge hchain s hs))

/-- The break-aware integration loop computes exactly the sum of the
per-segment clamped contributions. -/
lemma segment_scan_eq_sum {t1 t2 : ℝ} (h12 : t1 ≤ t2) :
    ∀ {τ : ℝ} {segs : List ParameterCurveSegment}, chainFrom τ segs →
      segment_scan t1 t2 segs = (segs.map fun s => seg_contrib s t1 t2).sum := by
  intro τ segs
  induction segs generalizing τ with
  | nil => intro _; simp [segment_scan]
  | cons s rest ih =>
      intro hchain
      obtain ⟨hst, hd, hrest⟩ := hchain
      rw [segment_scan, List.map_cons, List.sum_cons]
      by_cases h1 : t1 < s.start_time
      · rw [if_pos h1]
        by_cases h2 : t2 > s.start_time
        · rw [if_pos h2]
          by_cases h3 : t2 ≤ s.end_time
          · rw [if_pos h3]
            have hcontrib : seg_contrib s t1 t2 = s.integrate_segment s.start_time t2 := by
              rw [seg_contrib, if_pos, max_eq_right (le_of_lt h1), min_eq_left h3]
              rw [max_eq_right (le_of_lt h1), min_eq_left h3]
              exact le_of_lt h2
            rw [hcontrib, sum_seg_contrib_zero hrest h3, add_zero]
          · rw [if_neg h3]
            push_neg at h3
            have hcontrib : seg_contrib s t1 t2 =
                s.integrate_segment s.start_time s.end_time := by
              rw [seg_contrib, if_pos, max_eq_right (le_of_lt h1),
                min_eq_right (le_of_lt h3)]
              rw [max_eq_right (le_of_lt h1), min_eq_right (le_of_lt h3)]
              exact hd
            rw [hcontrib, ih hrest]
        · rw [if_neg h2]
          push_neg at h2
          rw [seg_contrib_zero_of_le_start h2, zero_add]
          exact ih hrest
      · rw [if_neg h1]
        push_neg at h1
        by_cases h4 : s.start_time ≤ t1 ∧ t1 < s.end_time
        · rw [if_pos h4]
          by_cases h5 : s.start_time ≤ t2 ∧ t2 < s.end_time
          · rw [if_pos h5]
            have hcontrib : seg_contrib s t1 t2 = s.integrate_segment t1 t2 := by
              rw [seg_contrib, if_pos, max_eq_left h4.1, min_eq_left (le_of_lt h5.2)]
              rw [max_eq_left h4.1, min_eq_left (le_of_lt h5.2)]
              exact h12
            rw [hcontrib, sum_seg_contrib_zero hrest (le_of_lt h5.2), add_zero]
          · rw [if_neg h5]
            have h5' : s.end_time ≤ t2 := by
              by_contra hcon
              exact h5 ⟨le_trans h4.1 h12, not_le.mp hcon⟩
            have hcontrib : seg_contrib s t1 t2 = s.integrate_segment t1 s.end_time := by
              rw [seg_contrib, if_pos, max_eq_left h4.1, min_eq_right h5']
              rw [max_eq_left h4.1, min_eq_right h5']
              exact le_of_lt h4.2
            rw [hcontrib, ih hrest]
        · rw [if_neg h4]
          have h4' : s.end_time ≤ t1 := by
            by_contra hcon
            exact h4 ⟨h1, not_le.mp hcon⟩
          rw [seg_contrib_zero_of_end_le h4', zero_add]
          exact ih hrest

/-- The start-index-narrowing bisection loop of `integrate_interval`
(lines 247-253), with fuel (the Python loop always breaks; the result on
fuel exhaustion is the current index, which is sound for the property we
use). -/
noncomputable def bisect_loop (segs : List ParameterCurveSegment) (t1 : ℝ) : ℕ → ℕ → ℕ
  | 0, start => start
  | fuel + 1, start =>
      let ns := start + (segs.length - start) / 2
      if (segs.getD ns default).end_time < t1 ∧ segs.length - ns > 3 then
        bisect_loop segs t1 fuel ns
      else start

lemma bisect_loop_succ (segs : List ParameterCurveSegment) (t1 : ℝ) (fuel start : ℕ) :
    bisect_loop segs t1 (fuel + 1) start =
      if (segs.getD (start + (segs.length - start) / 2) default).end_time < t1 ∧
          segs.length - (start + (segs.length - start) / 2) > 3 then
        bisect_loop segs t1 fuel (start + (segs.length - start) / 2)
      else start := rfl

lemma chainFrom_take_end_le {τ : ℝ} {segs : List ParameterCurveSegment}
    (hchain : chainFrom τ segs) :
    ∀ k, k < segs.length → ∀ s ∈ segs.take k, s.end_time ≤ (segs.getD k default).start_time := by
  induction segs generalizing τ with
  | nil => simp
  | cons x rest ih =>
      obtain ⟨hst, hd, hrest⟩ := hchain
      intro k hk s hs
      cases k with
      | zero => simp at hs
      | succ k =>
          simp only [List.take_succ_cons, List.mem_cons] at hs
          simp only [List.getD_cons_succ]
          rcases hs with rfl | hs
          · have hmem : rest.getD k default ∈ rest := by
              have hk' : k < rest.length := by simpa using hk
              rw [List.getD_eq_getElem _ _ hk']
              exact List.getElem_mem hk'
            exact chainFrom_start_ge hrest _ hmem
          · exact ih hrest k (by simpa using hk) s hs

lemma bisect_loop_sound {t1 : ℝ} {segs : List ParameterCurveSegment}
    (hchain : chainFrom 0 segs) :
    ∀ fuel start, (∀ s ∈ segs.take start, s.end_time < t1) →
      ∀ s ∈ segs.take (bisect_loop segs t1 fuel start), s.end_time < t1 := by
  intro fuel
  induction fuel with
  | zero => intro start h; exact h
  | succ fuel ih =>
      intro start h
      rw [bisect_loop_succ]
      by_cases hcond : (segs.getD (start + (segs.length - start) / 2) default).end_time < t1 ∧
          segs.length - (start + (segs.length - start) / 2) > 3
      · rw [if_pos hcond]
        refine ih _ fun s hs => ?_
        set ns := start + (segs.length - start) / 2 with hns
        have hlt : ns < segs.length := by omega
        have hend : s.end_time ≤ (segs.getD ns default).start_time ∨ s = segs.getD ns default := by
          rcases List.mem_take_iff_getElem.mp hs with ⟨i, hi, rfl⟩
          by_cases hins : i < ns
          · left
            refine chainFrom_take_end_le hchain ns hlt _ ?_
            rw [← List.getD_eq_getElem _ default (by omega)]
            refine List.mem_take_iff_getElem.mpr ⟨i, by omega, ?_⟩
            rw [List.getD_eq_getElem _ _ (by omega)]
          · right
            have : i = ns := by omega
            subst this
            rw [List.getD_eq_getElem _ _ (by omega)]
        rcases hend with hend | rfl
        · have hdur := chainFrom_dur hchain (segs.getD ns default) (by
            rw [List.getD_eq_getElem _ _ hlt]; exact List.getElem_mem hlt)
          exact lt_of_le_of_lt (le_trans hend hdur) hcond.1
        · exact hcond.1
      · rw [if_neg hcond]; exact h

lemma segment_scan_drop {t1 t2 : ℝ} :
    ∀ (segs : List ParameterCurveSegment) (k : ℕ),
      (∀ s ∈ segs.take k, s.end_time < t1) → (∀ s ∈ segs, s.start_time ≤ s.end_time) →
      segment_scan t1 t2 (segs.drop k) = segment_scan t1 t2 segs := by
  intro segs
  induction segs with
  | nil => simp
  | cons s rest ih =>
      intro k hk hd
      cases k with
      | zero => rfl
      | succ k =>
          have hs : s.end_time < t1 := hk s (by simp)
          have hns : ¬ t1 < s.start_time :=
            not_lt.mpr (le_of_lt (lt_of_le_of_lt (hd s (by simp)) hs))
          have hnc : ¬ (s.start_time ≤ t1 ∧ t1 < s.end_time) := fun h => absurd h.2 (not_lt.mpr hs.le)
          rw [List.drop_succ_cons, ih k (fun r hr => hk r (by simp [hr]))
            (fun r hr => hd r (by simp [hr]))]
          rw [segment_scan, if_neg hns, if_neg hnc]

/-- `ParameterCurve.integrate_interval`, with fuel for its (bounded)
self-recursion on the edge cases: antisymmetric flip, flat extrapolation
below `0` and above `length`, then the bisection-narrowed segment scan. -/
noncomputable def integrateF (c : ParameterCurve) : ℕ → ℝ → ℝ → Option ℝ
  | 0, _, _ => none
  | fuel + 1, t1, t2 =>
      if t1 = t2 then some 0
      else if t2 < t1 then (integrateF c fuel t2 t1).map (fun r => -r)
      else if t1 < 0 then (integrateF c fuel 0 t2).map (fun r => -t1 * c.start_level + r)
      else if t2 > c.length then
        (integrateF c fuel t1 c.length).map (fun r => (t2 - c.length) * c.end_level + r)
      else
        some (segment_scan t1 t2
          (c.segments.drop (bisect_loop c.segments t1 (c.segments.length + 1) 0)))

/-- `integrate_interval` itself: recursion depth is at most 5 for any
curve with non-negative length, so fuel 8 always suffices. -/
noncomputable def ParameterCurve.integrate_interval (c : ParameterCurve) (t1 t2 : ℝ) : ℝ :=
  (integrateF c 8 t1 t2).getD 0

/-- The same function with the bisection optimization removed: the segment
scan starts from the head of the full segment list. -/
noncomputable def integrateNoBisectF (c : ParameterCurve) : ℕ → ℝ → ℝ → Option ℝ
  | 0, _, _ => none
  | fuel + 1, t1, t2 =>
      if t1 = t2 then some 0
      else if t2 < t1 then (integrateNoBisectF c fuel t2 t1).map (fun r => -r)
      else if t1 < 0 then (integrateNoBisectF c fuel 0 t2).map (fun r => -t1 * c.start_level + r)
      else if t2 > c.length then
        (integrateNoBisectF c fuel t1 c.length).map (fun r => (t2 - c.length) * c.end_level + r)
      else some (segment_scan t1 t2 c.segments)

/-- Reference version of `integrate_interval` without the bisection. -/
noncomputable def ParameterCurve.integrate_interval_no_bisect (c : ParameterCurve) (t1 t2 : ℝ) : ℝ :=
  (integrateNoBisectF c 8 t1 t2).getD 0

lemma integrateF_eq_noBisect {c : ParameterCurve} (h : c.Invariant) :
    ∀ (fuel : ℕ) (t1 t2 : ℝ), integrateF c fuel t1 t2 = integrateNoBisectF c fuel t1 t2 := by
  intro fuel
  induction fuel with
  | zero => intro t1 t2; rfl
  | succ fuel ih =>
      intro t1 t2
      rw [integrateF, integrateNoBisectF, ih, ih, ih]
      have hscan : segment_scan t1 t2
          (c.segments.drop (bisect_loop c.segments t1 (c.segments.length + 1) 0)) =
          segment_scan t1 t2 c.segments :=
        segment_scan_drop c.segments _
          (bisect_loop_sound h.2 _ 0 (by simp)) (chainFrom_dur h.2)
      rw [hscan]

/-- The curve-level sum of per-segment contributions over `[0, t]`. -/
noncomputable def curvePhi (c : ParameterCurve) (t : ℝ) : ℝ :=
  (c.segments.map fun s => seg_contrib s 0 t).sum

/-- A potential function for `integrate_interval`: flat extrapolation at
`start_level` below `0`, the segment contributions inside `[0, length]`,
and flat extrapolation at `end_level` above `length`. -/
noncomputable def curvePot (c : ParameterCurve) (t : ℝ) : ℝ :=
  c.start_level * min t 0 + curvePhi c t + c.end_level * max (t - c.length) 0

lemma curvePhi_of_nonpos {c : ParameterCurve} {t : ℝ} (h : t ≤ 0) : curvePhi c t = 0 := by
  refine List.sum_eq_zero fun x hx => ?_
  obtain ⟨s, _, rfl⟩ := List.mem_map.mp hx
  rw [seg_contrib]
  by_cases hcond : max 0 s.start_time ≤ min t s.end_time
  · have h1 : min t s.end_time ≤ max 0 s.start_time :=
      le_trans (min_le_left _ _) (le_trans h (le_max_left _ _))
    rw [if_pos hcond, le_antisymm hcond h1, ParameterCurveSegment.integrate_segment, if_pos rfl]
  · exact if_neg hcond

lemma curvePhi_of_ge_length {c : ParameterCurve} (h : c.Invariant) {t : ℝ}
    (ht : c.length ≤ t) : curvePhi c t = curvePhi c c.length := by
  unfold curvePhi
  congr 1
  refine List.map_congr_left fun s hs => ?_
  have hend : s.end_time ≤ c.length := c.ends_le_length h s hs
  rw [seg_contrib, seg_contrib, min_eq_right (le_trans hend ht), min_eq_right hend]

lemma curvePot_of_nonpos {c : ParameterCurve} (h : c.Invariant) {t : ℝ} (ht : t ≤ 0) :
    curvePot c t = c.start_level * t := by
  rw [curvePot, min_eq_left ht, curvePhi_of_nonpos ht,
    max_eq_right (by linarith [c.length_nonneg h]), mul_zero, add_zero, add_zero]

lemma curvePot_of_in_range {c : ParameterCurve} {t : ℝ} (h0 : 0 ≤ t) (hL : t ≤ c.length) :
    curvePot c t = curvePhi c t := by
  rw [curvePot, min_eq_right h0, max_eq_right (by linarith), mul_zero, mul_zero,
    zero_add, add_zero]

lemma curvePot_of_ge_length {c : ParameterCurve} (h : c.Invariant) {t : ℝ}
    (ht : c.length ≤ t) :
    curvePot c t = curvePhi c c.length + c.end_level * (t - c.length) := by
  have h0 : (0:ℝ) ≤ t := le_trans (c.length_nonneg h) ht
  rw [curvePot, min_eq_right h0, max_eq_left (by linarith), mul_zero, zero_add,
    curvePhi_of_ge_length h ht]

lemma curvePot_zero {c : ParameterCurve} (h : c.Invariant) : curvePot c 0 = 0 := by
  rw [curvePot_of_nonpos h le_rfl, mul_zero]

lemma sum_seg_contrib_split {t1 t2 : ℝ} {segs : List ParameterCurveSegment}
    (hd : ∀ s ∈ segs, s.start_time ≤ s.end_time) (h0 : 0 ≤ t1) (h12 : t1 ≤ t2) :
    (segs.map fun s => seg_contrib s 0 t2).sum =
      (segs.map fun s => seg_contrib s 0 t1).sum +
        (segs.map fun s => seg_contrib s t1 t2).sum := by
  induction segs with
  | nil => simp
  | cons s rest ih =>
      simp only [List.map_cons, List.sum_cons]
      rw [ih fun r hr => hd r (by simp [hr]), seg_contrib_additive (hd s (by simp)) h0 h12]
      ring

lemma intNB_refl (c : ParameterCurve) (n : ℕ) (t : ℝ) :
    integrateNoBisectF c (n + 1) t t = some 0 := by
  rw [integrateNoBisectF, if_pos rfl]

lemma intNB_in_range {c : ParameterCurve} (h : c.Invariant) {t1 t2 : ℝ} (n : ℕ)
    (h0 : 0 ≤ t1) (h12 : t1 < t2) (hL : t2 ≤ c.length) :
    integrateNoBisectF c (n + 1) t1 t2 = some (curvePot c t2 - curvePot c t1) := by
  rw [integrateNoBisectF, if_neg h12.ne, if_neg (not_lt.mpr h12.le),
    if_neg (not_lt.mpr h0), if_neg (not_lt.mpr hL)]
  rw [segment_scan_eq_sum h12.le h.2,
    curvePot_of_in_range (le_trans h0 h12.le) hL,
    curvePot_of_in_range h0 (le_trans h12.le hL)]
  unfold curvePhi
  rw [sum_seg_contrib_split (chainFrom_dur h.2) h0 h12.le]
  ring_nf

lemma intNB_zero_to {c : ParameterCurve} (h : c.Invariant) {t2 : ℝ} (ht2 : 0 < t2) (n : ℕ) :
    integrateNoBisectF c (n + 2) 0 t2 = some (curvePot c t2) := by
  rcases le_or_lt t2 c.length with hin | hover
  · rw [intNB_in_range h (n + 1) le_rfl ht2 hin, curvePot_zero h, sub_zero]
  · rw [integrateNoBisectF, if_neg (ne_of_lt ht2), if_neg (not_lt.mpr ht2.le),
      if_neg (by norm_num), if_pos hover]
    rcases eq_or_lt_of_le (c.length_nonneg h) with hL0 | hL0
    · rw [← hL0, intNB_refl]
      rw [curvePot_of_ge_length h (le_of_lt (hL0 ▸ hover)), ← hL0]
      have : curvePhi c 0 = 0 := curvePhi_of_nonpos le_rfl
      simp only [Option.map_some', this, zero_add, sub_zero]
      congr 1
      ring
    · rw [intNB_in_range h n le_rfl hL0 le_rfl, curvePot_zero h, sub_zero,
        curvePot_of_ge_length h (le_of_lt hover),
        curvePot_of_in_range (c.length_nonneg h) le_rfl]
      simp only [Option.map_some']
      congr 1
      ring

lemma intNB_to_length {c : ParameterCurve} (h : c.Invariant) {t1 : ℝ} (h0 : 0 ≤ t1) (n : ℕ) :
    integrateNoBisectF c (n + 3) t1 c.length =
      some (curvePot c c.length - curvePot c t1) := by
  rcases lt_trichotomy t1 c.length with hlt | heq | hgt
  · exact intNB_in_range h (n + 2) h0 hlt le_rfl
  · rw [heq, intNB_refl, sub_self]
  · rw [integrateNoBisectF, if_neg (ne_of_gt hgt), if_pos hgt]
    rw [integrateNoBisectF, if_neg (ne_of_lt hgt), if_neg (not_lt.mpr hgt.le),
      if_neg (not_lt.mpr (c.length_nonneg h)), if_pos hgt, intNB_refl]
    rw [curvePot_of_ge_length h hgt.le,
      curvePot_of_in_range (c.length_nonneg h) le_rfl]
    simp only [Option.map_some']
    congr 1
    ring

lemma intNB_asc {c : ParameterCurve} (h : c.Invariant) {t1 t2 : ℝ} (h12 : t1 < t2) (n : ℕ) :
    integrateNoBisectF c (n + 5) t1 t2 = some (curvePot c t2 - curvePot c t1) := by
  have hL := c.length_nonneg h
  rcases lt_or_le t1 0 with hneg | hpos
  · rw [integrateNoBisectF, if_neg h12.ne, if_neg (not_lt.mpr h12.le), if_pos hneg]
    rcases lt_trichotomy t2 0 with ht2 | ht2 | ht2
    · rw [integrateNoBisectF, if_neg (ne_of_gt ht2), if_pos ht2]
      rw [integrateNoBisectF, if_neg (ne_of_lt ht2), if_neg (not_lt.mpr ht2.le), if_pos ht2,
        intNB_refl]
      rw [curvePot_of_nonpos h ht2.le, curvePot_of_nonpos h hneg.le]
      simp only [Option.map_some']
      congr 1
      ring
    · subst ht2
      rw [intNB_refl, curvePot_zero h, curvePot_of_nonpos h hneg.le]
      simp only [Option.map_some']
      congr 1
      ring
    · have : n + 4 = n + 2 + 2 := by ring
      rw [this, intNB_zero_to h ht2, curvePot_of_nonpos h hneg.le]
      simp only [Option.map_some']
      congr 1
      ring
  · rcases le_or_lt t2 c.length with hin | hover
    · exact intNB_in_range h (n + 4) hpos h12 hin
    · rw [integrateNoBisectF, if_neg h12.ne, if_neg (not_lt.mpr h12.le),
        if_neg (not_lt.mpr hpos), if_pos hover]
      have : n + 4 = n + 1 + 3 := by ring
      rw [this, intNB_to_length h hpos,
        curvePot_of_ge_length h hover.le,
        curvePot_of_in_range (c.length_nonneg h) le_rfl]
      simp only [Option.map_some']
      congr 1
      ring

lemma intNB_eq_pot {c : ParameterCurve} (h : c.Invariant) (t1 t2 : ℝ) (n : ℕ) :
    integrateNoBisectF c (n + 6) t1 t2 = some (curvePot c t2 - curvePot c t1) := by
  rcases lt_trichotomy t1 t2 with hlt | heq | hgt
  · have : n + 6 = n + 1 + 5 := by ring
    rw [this]
    exact intNB_asc h hlt (n + 1)
  · rw [heq, intNB_refl, sub_self]
  · rw [integrateNoBisectF, if_neg (ne_of_gt hgt), if_pos hgt, intNB_asc h hgt n]
    simp only [Option.map_some']
    congr 1
    ring

/-- Under the invariant, `integrate_interval` is the difference of the
potential function. -/
lemma ParameterCurve.integrate_interval_eq_pot {c : ParameterCurve} (h : c.Invariant)
    (t1 t2 : ℝ) : c.integrate_interval t1 t2 = curvePot c t2 - curvePot c t1 := by
  rw [ParameterCurve.integrate_interval, integrateF_eq_noBisect h]
  have h8 : (8:ℕ) = 2 + 6 := by norm_num
  rw [h8, intNB_eq_pot h t1 t2 2, Option.getD_some]

/-- **C6.** The bisection optimization in `integrate_interval` is
result-preserving: for every invariant-satisfying curve and all bounds,
the integral computed with the start-index-narrowing bisection loop equals
the integral computed by scanning the full segment list from index 0. -/
theorem C6_bisection_result_preserving (c : ParameterCurve) (h : c.Invariant) (t1 t2 : ℝ) :
    c.integrate_interval t1 t2 = c.integrate_interval_no_bisect t1 t2 := by
  rw [ParameterCurve.integrate_interval, ParameterCurve.integrate_interval_no_bisect,
    integrateF_eq_noBisect h]

/-- Witness for `C6_bisection_result_preserving` at a concrete two-segment
curve and bounds. -/
theorem C6_bisection_result_preserving_witness :
    (ParameterCurve.mk [⟨0, 1, 0, 2, 0⟩, ⟨1, 3, 2, 5, 0⟩]).Invariant ∧
      (ParameterCurve.mk [⟨0, 1, 0, 2, 0⟩, ⟨1, 3, 2, 5, 0⟩]).integrate_interval (1/2) 2 =
        (ParameterCurve.mk [⟨0, 1, 0, 2, 0⟩, ⟨1, 3, 2, 5, 0⟩]).integrate_interval_no_bisect (1/2) 2 := by
  have hinv : (ParameterCurve.mk [⟨0, 1, 0, 2, 0⟩, ⟨1, 3, 2, 5, 0⟩]).Invariant :=
    ⟨by simp, by norm_num [chainFrom]⟩
  exact ⟨hinv, C6_bisection_result_preserving _ hinv (1/2) 2⟩

/-- **C7.** Integration is interval-additive: for every invariant-satisfying
curve and all times `t1 <= t2 <= t3` (including times outside
`[0, length]`, handled by flat extrapolation), `integrate_interval t1 t3 =
integrate_interval t1 t2 + integrate_interval t2 t3`. -/
theorem C7_integration_interval_additive (c : ParameterCurve) (h : c.Invariant)
    (t1 t2 t3 : ℝ) (h12 : t1 ≤ t2) (h23 : t2 ≤ t3) :
    c.integrate_interval t1 t3 =
      c.integrate_interval t1 t2 + c.integrate_interval t2 t3 := by
  rw [c.integrate_interval_eq_pot h, c.integrate_interval_eq_pot h,
    c.integrate_interval_eq_pot h]
  ring

/-- Witness for `C7_integration_interval_additive` at a concrete curve and
times straddling both ends of the domain. -/
theorem C7_integration_interval_additive_witness :
    (ParameterCurve.mk [⟨0, 2, 1, 3, 0⟩]).Invariant ∧ (-1:ℝ) ≤ 1 ∧ (1:ℝ) ≤ 5 ∧
      (ParameterCurve.mk [⟨0, 2, 1, 3, 0⟩]).integrate_interval (-1) 5 =
        (ParameterCurve.mk [⟨0, 2, 1, 3, 0⟩]).integrate_interval (-1) 1 +
          (ParameterCurve.mk [⟨0, 2, 1, 3, 0⟩]).integrate_interval 1 5 := by
  have hinv : (ParameterCurve.mk [⟨0, 2, 1, 3, 0⟩]).Invariant :=
    ⟨by simp, by norm_num [chainFrom]⟩
  exact ⟨hinv, by norm_num,  by norm_num,
    C7_integration_interval_additive _ hinv (-1) 1 5 (by norm_num) (by norm_num)⟩

lemma exp_sub_one_ne_zero {a : ℝ} (ha : a ≠ 0) : Real.exp a - 1 ≠ 0 := by
  have h := Real.exp_eq_one_iff (x := a)
  exact sub_ne_zero.mpr fun hh => ha (h.mp hh)

lemma shape_ne_zero_of_not_lt {S : ℝ} (h : ¬ |S| < 0.000001) : S ≠ 0 := by
  intro h0
  rw [h0, abs_zero] at h
  norm_num at h

lemma value_at_interior_mk (st en y1 y2 S x : ℝ) (h1 : st < x) (h2 : x < en) :
    (ParameterCurveSegment.mk st en y1 y2 S).value_at x =
      if |S| < 0.000001 then y1 + (x - st) / (en - st) * (y2 - y1)
      else y1 + (y2 - y1) / (Real.exp S - 1) * (Real.exp (S * ((x - st) / (en - st))) - 1) := by
  rw [ParameterCurveSegment.value_at, if_neg (by simp [not_le.mpr h2]),
    if_neg (by simp [not_le.mpr h1])]

/-- The split shapes produced by `split_at t` land on the same side of the
`1e-6` linear/exponential threshold as the original shape: either the
original is linear (then so are both halves automatically), or both split
shapes are still at least `1e-6` in absolute value. -/
def splitBranchConsistent (s : ParameterCurveSegment) (t : ℝ) : Prop :=
  |s.curve_shape| < 0.000001 ∨
    (0.000001 ≤ |(t - s.start_time) / (s.end_time - s.start_time) * s.curve_shape| ∧
     0.000001 ≤ |s.curve_shape - (t - s.start_time) / (s.end_time - s.start_time) * s.curve_shape|)

lemma value_at_start_mk (st en y1 y2 S : ℝ) (h : st < en) :
    (ParameterCurveSegment.mk st en y1 y2 S).value_at st = y1 :=
  ParameterCurveSegment.value_at_start_time (s := ⟨st, en, y1, y2, S⟩) h

lemma split_at_fst_value {s : ParameterCurveSegment} {t : ℝ}
    (h1 : s.start_time < t) (h2 : t < s.end_time) (hbc : splitBranchConsistent s t)
    {x : ℝ} (hx1 : s.start_time ≤ x) (hx2 : x ≤ t) :
    (s.split_at t).1.value_at x = s.value_at x := by
  obtain ⟨st, en, y1, y2, S⟩ := s
  dsimp only [ParameterCurveSegment.split_at, splitBranchConsistent] at *
  rcases eq_or_lt_of_le hx2 with rfl | hxt
  · rw [ParameterCurveSegment.value_at_end_time]
  by_cases hxe : x = st
  · rw [hxe, value_at_start_mk st t y1 _ _ h1, value_at_start_mk st en y1 y2 S (h1.trans h2)]
  have hx1' : st < x := lt_of_le_of_ne hx1 (Ne.symm hxe)
  have hts : t - st ≠ 0 := sub_ne_zero.mpr (ne_of_gt h1)
  have hes : en - st ≠ 0 := sub_ne_zero.mpr (ne_of_gt (h1.trans h2))
  have hu0 : 0 < (t - st) / (en - st) := div_pos (by linarith) (by linarith)
  have hu1 : (t - st) / (en - st) ≤ 1 := by
    rw [div_le_one (by linarith)]
    linarith
  rw [value_at_interior_mk st t y1 _ _ x hx1' hxt,
    value_at_interior_mk st en y1 y2 S x hx1' (hxt.trans h2),
    value_at_interior_mk st en y1 y2 S t h1 h2]
  by_cases hlin : |S| < 0.000001
  · have hlin' : |(t - st) / (en - st) * S| < 0.000001 := by
      rw [abs_mul]
      calc |(t - st) / (en - st)| * |S| ≤ 1 * |S| := by
            apply mul_le_mul_of_nonneg_right _ (abs_nonneg _)
            rw [abs_of_pos hu0]; exact hu1
        _ = |S| := one_mul _
        _ < 0.000001 := hlin
    rw [if_pos hlin, if_pos hlin, if_pos hlin']
    field_simp
    ring
  · have hbc' := hbc.resolve_left hlin
    have hlin1 : ¬ |(t - st) / (en - st) * S| < 0.000001 := not_lt.mpr hbc'.1
    have hS : S ≠ 0 := shape_ne_zero_of_not_lt hlin
    have hS1 : (t - st) / (en - st) * S ≠ 0 := shape_ne_zero_of_not_lt hlin1
    rw [if_neg hlin, if_neg hlin, if_neg hlin1]
    have e1 : Real.exp ((t - st) / (en - st) * S) = Real.exp (S * ((t - st) / (en - st))) := by
      rw [mul_comm]
    have e2 : Real.exp ((t - st) / (en - st) * S * ((x - st) / (t - st))) =
        Real.exp (S * ((x - st) / (en - st))) := by
      congr 1
      field_simp
      ring
    rw [e1, e2]
    have hE : Real.exp S - 1 ≠ 0 := exp_sub_one_ne_zero hS
    have hEt : Real.exp (S * ((t - st) / (en - st))) - 1 ≠ 0 :=
      exp_sub_one_ne_zero (by rw [mul_comm]; exact hS1)
    set E := Real.exp S
    set Et := Real.exp (S * ((t - st) / (en - st)))
    set Ex := Real.exp (S * ((x - st) / (en - st)))
    field_simp
    ring

lemma split_at_snd_value {s : ParameterCurveSegment} {t : ℝ}
    (h1 : s.start_time < t) (h2 : t < s.end_time) (hbc : splitBranchConsistent s t)
    {x : ℝ} (hx1 : t ≤ x) (hx2 : x ≤ s.end_time) :
    (s.split_at t).2.value_at x = s.value_at x := by
  obtain ⟨st, en, y1, y2, S⟩ := s
  dsimp only [ParameterCurveSegment.split_at, splitBranchConsistent] at *
  rcases eq_or_lt_of_le hx2 with rfl | hxen
  · rw [ParameterCurveSegment.value_at_end_time, ParameterCurveSegment.value_at_end_time]
  rcases eq_or_lt_of_le hx1 with rfl | hxt
  · rw [value_at_start_mk t en _ y2 _ h2]
  have hts : t - st ≠ 0 := sub_ne_zero.mpr (ne_of_gt h1)
  have het : en - t ≠ 0 := sub_ne_zero.mpr (ne_of_gt (hxt.trans hxen))
  have hes : en - st ≠ 0 := sub_ne_zero.mpr (ne_of_gt (h1.trans h2))
  have hu0 : 0 < (t - st) / (en - st) := div_pos (by linarith) (by linarith)
  have hu1 : (t - st) / (en - st) ≤ 1 := by
    rw [div_le_one (by linarith)]
    linarith
  rw [value_at_interior_mk t en _ y2 _ x hxt hxen,
    value_at_interior_mk st en y1 y2 S x (h1.trans hxt) hxen,
    value_at_interior_mk st en y1 y2 S t h1 h2]
  by_cases hlin : |S| < 0.000001
  · have hlin' : |S - (t - st) / (en - st) * S| < 0.000001 := by
      have : S - (t - st) / (en - st) * S = (1 - (t - st) / (en - st)) * S := by ring
      rw [this, abs_mul]
      calc |1 - (t - st) / (en - st)| * |S| ≤ 1 * |S| := by
            apply mul_le_mul_of_nonneg_right _ (abs_nonneg _)
            rw [abs_of_nonneg (by linarith)]
            linarith
        _ = |S| := one_mul _
        _ < 0.000001 := hlin
    rw [if_pos hlin, if_pos hlin, if_pos hlin']
    field_simp
    ring
  · have hbc' := hbc.resolve_left hlin
    have hlin2 : ¬ |S - (t - st) / (en - st) * S| < 0.000001 := not_lt.mpr hbc'.2
    have hS : S ≠ 0 := shape_ne_zero_of_not_lt hlin
    have hS2 : S - (t - st) / (en - st) * S ≠ 0 := shape_ne_zero_of_not_lt hlin2
    rw [if_neg hlin, if_neg hlin, if_neg hlin2]
    have e1 : Real.exp (S - (t - st) / (en - st) * S) =
        Real.exp (S * ((en - t) / (en - st))) := by
      congr 1
      field_simp
      ring
    have e2 : Real.exp ((S - (t - st) / (en - st) * S) * ((x - t) / (en - t))) =
        Real.exp (S * ((x - t) / (en - st))) := by
      congr 1
      field_simp
      ring
    have hEsplit : Real.exp S =
        Real.exp (S * ((t - st) / (en - st))) * Real.exp (S * ((en - t) / (en - st))) := by
      rw [← Real.exp_add]
      congr 1
      field_simp
      ring
    have hExsplit : Real.exp (S * ((x - st) / (en - st))) =
        Real.exp (S * ((t - st) / (en - st))) * Real.exp (S * ((x - t) / (en - st))) := by
      rw [← Real.exp_add]
      congr 1
      field_simp
      ring
    have hE : Real.exp S - 1 ≠ 0 := exp_sub_one_ne_zero hS
    have hEq : Real.exp (S * ((en - t) / (en - st))) - 1 ≠ 0 := by
      refine exp_sub_one_ne_zero ?_
      intro hcon
      apply hS2
      rw [show S - (t - st) / (en - st) * S = S * ((en - t) / (en - st)) from by
        field_simp; ring, hcon]
    rw [e1, e2, hExsplit]
    rw [hEsplit] at hE ⊢
    set Et := Real.exp (S * ((t - st) / (en - st)))
    set Eq2 := Real.exp (S * ((en - t) / (en - st)))
    set R := Real.exp (S * ((x - t) / (en - st)))
    field_simp
    ring

/-- The search-and-split loop of `ParameterCurve.insert_interpolated`:
return unchanged at an existing boundary, split the containing segment in
place (inserting the second half), otherwise keep scanning.  (The Python
loop keeps iterating after the split, but the next element then starts at
`t` and triggers the early return, so stopping is behaviourally equal.) -/
noncomputable def insert_interpolated_list (t : ℝ) :
    List ParameterCurveSegment → List ParameterCurveSegment
  | [] => []
  | s :: rest =>
      if t = s.start_time then s :: rest
      else if s.start_time ≤ t ∧ t < s.end_time then
        (s.split_at t).1 :: (s.split_at t).2 :: rest
      else s :: insert_interpolated_list t rest

/-- `ParameterCurve.insert_interpolated` (modelled on the in-range domain
`0 <= t <= length` demanded by its assertions). -/
noncomputable def ParameterCurve.insert_interpolated (c : ParameterCurve) (t : ℝ) :
    ParameterCurve :=
  if t = c.length then c else ⟨insert_interpolated_list t c.segments⟩

lemma insert_interpolated_list_cases (t : ℝ) (segs : List ParameterCurveSegment) :
    insert_interpolated_list t segs = segs ∨
    ∃ pre s post, segs = pre ++ s :: post ∧ s.start_time < t ∧ t < s.end_time ∧
      insert_interpolated_list t segs = pre ++ (s.split_at t).1 :: (s.split_at t).2 :: post := by
  induction segs with
  | nil => left; rfl
  | cons s rest ih =>
      by_cases h1 : t = s.start_time
      · left; rw [insert_interpolated_list, if_pos h1]
      · by_cases h2 : s.start_time ≤ t ∧ t < s.end_time
        · right
          refine ⟨[], s, rest, rfl, lt_of_le_of_ne h2.1 (Ne.symm h1), h2.2, ?_⟩
          rw [insert_interpolated_list, if_neg h1, if_pos h2]
          rfl
        · rcases ih with ih | ⟨pre, s', post, hseg, hs1, hs2, hres⟩
          · left
            rw [insert_interpolated_list, if_neg h1, if_neg h2, ih]
          · right
            refine ⟨s :: pre, s', post, by rw [hseg]; rfl, hs1, hs2, ?_⟩
            rw [insert_interpolated_list, if_neg h1, if_neg h2, hres]
            rfl

lemma value_at_scan_split {endLvl t x : ℝ} {pre : List ParameterCurveSegment}
    {s : ParameterCurveSegment} (h1 : s.start_time < t) (h2 : t < s.end_time)
    (hbc : splitBranchConsistent s t) :
    ParameterCurve.value_at_scan endLvl x ((s.split_at t).2 :: (s.split_at t).1 :: pre) =
      ParameterCurve.value_at_scan endLvl x (s :: pre) := by
  have hfst_start : (s.split_at t).1.start_time = s.start_time := rfl
  have hfst_end : (s.split_at t).1.end_time = t := rfl
  have hsnd_start : (s.split_at t).2.start_time = t := rfl
  have hsnd_end : (s.split_at t).2.end_time = s.end_time := rfl
  rw [ParameterCurve.value_at_scan, ParameterCurve.value_at_scan,
    ParameterCurve.value_at_scan, hsnd_start, hsnd_end, hfst_start, hfst_end]
  by_cases hin2 : t ≤ x ∧ x < s.end_time
  · rw [if_pos hin2, if_pos ⟨le_trans h1.le hin2.1, hin2.2⟩,
      split_at_snd_value h1 h2 hbc hin2.1 hin2.2.le]
  · rw [if_neg hin2]
    by_cases hin1 : s.start_time ≤ x ∧ x < t
    · rw [if_pos hin1, if_pos ⟨hin1.1, hin1.2.trans h2⟩,
        split_at_fst_value h1 h2 hbc hin1.1 hin1.2.le]
    · have hout : ¬ (s.start_time ≤ x ∧ x < s.end_time) := by
        intro hcon
        rcases lt_or_le x t with hx | hx
        · exact hin1 ⟨hcon.1, hx⟩
        · exact hin2 ⟨hx, hcon.2⟩
      rw [if_neg hin1, if_neg hout]

lemma getLastD_append_cons {α : Type} (l1 : List α) (a : α) (l2 : List α) :
    ∀ d, (l1 ++ a :: l2).getLastD d = (a :: l2).getLastD d := by
  induction l1 with
  | nil => intro d; rfl
  | cons x xs ih =>
      intro d
      rw [List.cons_append, List.getLastD_cons, ih x, List.getLastD_cons,
        List.getLastD_cons]

lemma getLastD_cons_cons {α : Type} (a b : α) (l : List α) (d : α) :
    (a :: b :: l).getLastD d = (b :: l).getLastD d := by
  rw [List.getLastD_cons, List.getLastD_cons, List.getLastD_cons]

lemma insert_interpolated_value_at (c : ParameterCurve) (t : ℝ)
    (hbc : ∀ s ∈ c.segments, s.start_time < t → t < s.end_time → splitBranchConsistent s t)
    (x : ℝ) : (c.insert_interpolated t).value_at x = c.value_at x := by
  rw [ParameterCurve.insert_interpolated]
  by_cases hlen : t = c.length
  · rw [if_pos hlen]
  rw [if_neg hlen]
  rcases insert_interpolated_list_cases t c.segments with hsame |
    ⟨pre, s, post, hseg, hs1, hs2, hres⟩
  · rw [hsame]
  · have hmem : s ∈ c.segments := by
      rw [hseg]
      exact List.mem_append_right pre (List.mem_cons_self s post)
    have hbcs := hbc s hmem hs1 hs2
    rw [hres]
    have hsl : (ParameterCurve.mk
        (pre ++ (s.split_at t).1 :: (s.split_at t).2 :: post)).start_level = c.start_level := by
      rw [ParameterCurve.start_level, ParameterCurve.start_level, hseg]
      cases pre with
      | nil => rfl
      | cons p ps => rfl
    have hel : (ParameterCurve.mk
        (pre ++ (s.split_at t).1 :: (s.split_at t).2 :: post)).end_level = c.end_level := by
      rw [ParameterCurve.end_level, ParameterCurve.end_level, hseg,
        getLastD_append_cons, getLastD_append_cons, getLastD_cons_cons]
      cases post with
      | nil => rfl
      | cons q qs =>
          rw [List.getLastD_cons, List.getLastD_cons, List.getLastD_cons,
            List.getLastD_cons]
    rw [ParameterCurve.value_at, ParameterCurve.value_at]
    by_cases hx0 : x < 0
    · rw [if_pos hx0, if_pos hx0, hsl]
    · rw [if_neg hx0, if_neg hx0, hel]
      have hrev1 : (pre ++ (s.split_at t).1 :: (s.split_at t).2 :: post).reverse
          = post.reverse ++ (s.split_at t).2 :: (s.split_at t).1 :: pre.reverse := by
        simp
      have hrev2 : (pre ++ s :: post).reverse = post.reverse ++ s :: pre.reverse := by
        simp
      show ParameterCurve.value_at_scan _ x _ = ParameterCurve.value_at_scan _ x _
      rw [hrev1, hseg, hrev2]
      exact ParameterCurve.value_at_scan_append_congr (value_at_scan_split hs1 hs2 hbcs)

/-- **C3.** Splitting loses no information *provided the derived split
shapes stay on the same side of the `1e-6` linear/exponential threshold*
(`splitBranchConsistent`): both halves of `split_at t` then re-evaluate to
the original segment everywhere on their sub-intervals, and
`insert_interpolated t` never changes the curve's `value_at`.  (The
unrestricted claim fails: `C3_counterexample` splits an exponential
segment so close to its start that the first half's shape falls below the
`1e-6` threshold and is evaluated linearly, changing interior values.) -/
theorem C3_split_no_information_loss :
    (∀ (s : ParameterCurveSegment) (t : ℝ), s.start_time < t → t < s.end_time →
      splitBranchConsistent s t →
      ∀ x, (s.start_time ≤ x → x ≤ t → (s.split_at t).1.value_at x = s.value_at x) ∧
           (t ≤ x → x ≤ s.end_time → (s.split_at t).2.value_at x = s.value_at x)) ∧
    (∀ (c : ParameterCurve) (t : ℝ),
      (∀ s ∈ c.segments, s.start_time < t → t < s.end_time → splitBranchConsistent s t) →
      ∀ x, (c.insert_interpolated t).value_at x = c.value_at x) :=
  ⟨fun _ _ h1 h2 hbc _ =>
    ⟨fun hx1 hx2 => split_at_fst_value h1 h2 hbc hx1 hx2,
     fun hx1 hx2 => split_at_snd_value h1 h2 hbc hx1 hx2⟩,
   fun c t hbc x => insert_interpolated_value_at c t hbc x⟩

/-- The exponential segment `(0,1, 0→1, S=1)` used to refute the
unrestricted C3 claim. -/
noncomputable def c3seg : ParameterCurveSegment := ⟨0, 1, 0, 1, 1⟩

/-- **C3, counterexample.** Splitting the exponential segment `c3seg` at
`t = 1e-7` produces a first half whose shape `1e-7` falls below the `1e-6`
threshold, so the half is evaluated *linearly*; at `x = 5e-8` its value
differs from the original exponential segment's value. -/
theorem C3_counterexample :
    c3seg.start_time < 1/10000000 ∧ (1/10000000 : ℝ) < c3seg.end_time ∧
      (c3seg.split_at (1/10000000)).1.value_at (1/20000000) ≠
        c3seg.value_at (1/20000000) := by
  have hc : c3seg = ⟨0, 1, 0, 1, 1⟩ := rfl
  refine ⟨by rw [hc]; norm_num, by rw [hc]; norm_num, ?_⟩
  have hmid : c3seg.value_at (1/10000000) =
      (Real.exp (1/10000000) - 1) / (Real.exp 1 - 1) := by
    rw [hc, value_at_interior_mk 0 1 0 1 1 (1/10000000) (by norm_num) (by norm_num),
      if_neg (by norm_num)]
    norm_num
    ring
  have hrhs : c3seg.value_at (1/20000000) =
      (Real.exp (1/20000000) - 1) / (Real.exp 1 - 1) := by
    rw [hc, value_at_interior_mk 0 1 0 1 1 (1/20000000) (by norm_num) (by norm_num),
      if_neg (by norm_num)]
    norm_num
    ring
  have hfst : (c3seg.split_at (1/10000000)).1 =
      ⟨0, 1/10000000, 0, c3seg.value_at (1/10000000), (1/10000000 - 0) / (1 - 0) * 1⟩ := rfl
  have hlhs : (c3seg.split_at (1/10000000)).1.value_at (1/20000000) =
      (Real.exp (1/10000000) - 1) / (Real.exp 1 - 1) / 2 := by
    rw [hfst, value_at_interior_mk 0 (1/10000000) 0 _ _ (1/20000000)
      (by norm_num) (by norm_num), if_pos (by rw [abs_of_pos (by norm_num)]; norm_num),
      hmid]
    norm_num
    ring
  rw [hlhs, hrhs]
  have hE : Real.exp 1 - 1 ≠ 0 := exp_sub_one_ne_zero one_ne_zero
  have hdouble : Real.exp (1/10000000) =
      Real.exp (1/20000000) * Real.exp (1/20000000) := by
    rw [← Real.exp_add]
    norm_num
  have ha1 : Real.exp (1/20000000) ≠ 1 := by
    have h := Real.exp_eq_one_iff (x := (1/20000000 : ℝ))
    intro hcon
    have := h.mp hcon
    norm_num at this
  intro heq
  rw [hdouble] at heq
  field_simp at heq
  have hfactor : (Real.exp 1 - 1) * (Real.exp (1/20000000) - 1) ^ 2 = 0 := by
    linear_combination heq
  have hsq : (Real.exp (1/20000000) - 1) ^ 2 = 0 := by
    rcases mul_eq_zero.mp hfactor with h | h
    · exact absurd h hE
    · exact h
  have : Real.exp (1/20000000) - 1 = 0 := by
    have h2 : (2:ℕ) ≠ 0 := by norm_num
    exact (pow_eq_zero_iff h2).mp hsq
  exact ha1 (sub_eq_zero.mp this)

/-- Witness for `C3_split_no_information_loss`: a linear segment split at
an interior point, and a one-segment curve subdivided at its midpoint. -/
theorem C3_split_no_information_loss_witness :
    ((ParameterCurveSegment.mk 0 2 0 4 0).start_time < 1 ∧
      (1:ℝ) < (ParameterCurveSegment.mk 0 2 0 4 0).end_time ∧
      splitBranchConsistent (ParameterCurveSegment.mk 0 2 0 4 0) 1 ∧
      (ParameterCurveSegment.mk 0 2 0 4 0).start_time ≤ (1/2 : ℝ) ∧ (1/2 : ℝ) ≤ 1 ∧
      ((ParameterCurveSegment.mk 0 2 0 4 0).split_at 1).1.value_at (1/2) =
        (ParameterCurveSegment.mk 0 2 0 4 0).value_at (1/2)) ∧
    ((∀ s ∈ (ParameterCurve.mk [⟨0, 2, 0, 4, 0⟩]).segments,
        s.start_time < 1 → (1:ℝ) < s.end_time → splitBranchConsistent s 1) ∧
      ((ParameterCurve.mk [⟨0, 2, 0, 4, 0⟩]).insert_interpolated 1).value_at (1/2) =
        (ParameterCurve.mk [⟨0, 2, 0, 4, 0⟩]).value_at (1/2)) := by
  have h1 : (ParameterCurveSegment.mk 0 2 0 4 0).start_time < 1 := by norm_num
  have h2 : (1:ℝ) < (ParameterCurveSegment.mk 0 2 0 4 0).end_time := by norm_num
  have hbc : splitBranchConsistent (ParameterCurveSegment.mk 0 2 0 4 0) 1 := by
    left; norm_num
  have hbcc : ∀ s ∈ (ParameterCurve.mk [⟨0, 2, 0, 4, 0⟩]).segments,
      s.start_time < 1 → (1:ℝ) < s.end_time → splitBranchConsistent s 1 := by
    intro s hs _ _
    rcases List.mem_singleton.mp hs with rfl
    left; norm_num
  exact ⟨⟨h1, h2, hbc, by norm_num, by norm_num,
      (C3_split_no_information_loss.1 _ 1 h1 h2 hbc (1/2)).1 (by norm_num) (by norm_num)⟩,
    ⟨hbcc, C3_split_no_information_loss.2 _ 1 hbcc (1/2)⟩⟩

/-- The scenario segment for C8: levels `1 → 4` over `[0, 1]` with the
"exp" shape `ln(4)` (`ln(end_level/start_level)`). -/
noncomputable def c8seg : ParameterCurveSegment := ⟨0, 1, 1, 4, Real.log 4⟩

lemma one_lt_log_four : 1 < Real.log 4 := by
  rw [Real.lt_log_iff_exp_lt (by norm_num : (0:ℝ) < 4)]
  calc Real.exp 1 < 2.7182818286 := Real.exp_one_lt_d9
    _ < 4 := by norm_num

lemma c8seg_value_at_rpow {u : ℝ} (h0 : 0 ≤ u) (h1 : u ≤ 1) :
    c8seg.value_at u = (4:ℝ) ^ u := by
  have hc : c8seg = ⟨0, 1, 1, 4, Real.log 4⟩ := rfl
  rcases eq_or_lt_of_le h0 with rfl | h0'
  · rw [hc, value_at_start_mk 0 1 1 4 (Real.log 4) (by norm_num), Real.rpow_zero]
  rcases eq_or_lt_of_le h1 with rfl | h1'
  · rw [hc]
    rw [ParameterCurveSegment.value_at_end_time (s := ⟨0, 1, 1, 4, Real.log 4⟩),
      Real.rpow_one]
  rw [hc, value_at_interior_mk 0 1 1 4 (Real.log 4) u h0' h1',
    if_neg (by rw [abs_of_pos (by linarith [one_lt_log_four])]; nlinarith [one_lt_log_four]),
    Real.exp_log (by norm_num : (0:ℝ) < 4),
    show Real.log 4 * ((u - 0) / (1 - 0)) = Real.log 4 * u by ring,
    Real.rpow_def_of_pos (by norm_num : (0:ℝ) < 4)]
  have h4 : (4:ℝ) - 1 ≠ 0 := by norm_num
  field_simp

/-- **C8.**  On the segment from level 1 to level 4 with curve shape
`ln 4`, `value_at` at normalized time `u` equals
`start_level * (end_level/start_level)^u`, so equal time steps multiply
the value by equal factors (`value_at (u+d) = value_at u * 4^d`). -/
theorem C8_constant_proportional_rate :
    (∀ u : ℝ, 0 ≤ u → u ≤ 1 →
      c8seg.value_at u = c8seg.start_level * (c8seg.end_level / c8seg.start_level) ^ u) ∧
    (∀ u d : ℝ, 0 ≤ u → 0 ≤ d → u + d ≤ 1 →
      c8seg.value_at (u + d) = c8seg.value_at u * (4:ℝ) ^ d) := by
  have hbase : ∀ u : ℝ, 0 ≤ u → u ≤ 1 → c8seg.value_at u = (4:ℝ) ^ u := fun u h0 h1 =>
    c8seg_value_at_rpow h0 h1
  constructor
  · intro u h0 h1
    rw [hbase u h0 h1]
    show (4:ℝ) ^ u = 1 * ((4:ℝ) / 1) ^ u
    norm_num
  · intro u d h0 hd h1
    rw [hbase u h0 (by linarith), hbase (u + d) (by linarith) h1,
      Real.rpow_add (by norm_num : (0:ℝ) < 4)]

/-- Witness for `C8_constant_proportional_rate` at `u = 1/2`, `d = 1/4`. -/
theorem C8_constant_proportional_rate_witness :
    ((0:ℝ) ≤ 1/2 ∧ (1/2:ℝ) ≤ 1 ∧
      c8seg.value_at (1/2) =
        c8seg.start_level * (c8seg.end_level / c8seg.start_level) ^ (1/2 : ℝ)) ∧
    ((0:ℝ) ≤ 1/4 ∧ (1/2 : ℝ) + 1/4 ≤ 1 ∧
      c8seg.value_at (1/2 + 1/4) = c8seg.value_at (1/2) * (4:ℝ) ^ (1/4 : ℝ)) :=
  ⟨⟨by norm_num, by norm_num,
      C8_constant_proportional_rate.1 (1/2) (by norm_num) (by norm_num)⟩,
   ⟨by norm_num, by norm_num,
      C8_constant_proportional_rate.2 (1/2) (1/4) (by norm_num) (by norm_num) (by norm_num)⟩⟩

lemma exp_ratio_nonneg {S u : ℝ} (hS : S ≠ 0) (h0 : 0 ≤ u) :
    0 ≤ (Real.exp (S * u) - 1) / (Real.exp S - 1) := by
  rcases lt_or_gt_of_ne hS with hneg | hpos
  · have hE : Real.exp S - 1 < 0 := by
      rw [sub_neg]
      exact Real.exp_lt_one_iff.mpr hneg
    have hEu : Real.exp (S * u) - 1 ≤ 0 := by
      rw [sub_nonpos]
      calc Real.exp (S * u) ≤ Real.exp 0 :=
            Real.exp_le_exp.mpr (mul_nonpos_of_nonpos_of_nonneg hneg.le h0)
        _ = 1 := Real.exp_zero
    exact div_nonneg_iff.mpr (Or.inr ⟨hEu, hE.le⟩)
  · have hE : 0 < Real.exp S - 1 := by
      rw [sub_pos]
      exact Real.one_lt_exp_iff.mpr hpos
    have hEu : 0 ≤ Real.exp (S * u) - 1 := by
      rw [sub_nonneg]
      calc (1:ℝ) = Real.exp 0 := Real.exp_zero.symm
        _ ≤ Real.exp (S * u) := Real.exp_le_exp.mpr (mul_nonneg hpos.le h0)
    exact div_nonneg hEu hE.le

lemma exp_ratio_le_one {S u : ℝ} (hS : S ≠ 0) (h1 : u ≤ 1) :
    (Real.exp (S * u) - 1) / (Real.exp S - 1) ≤ 1 := by
  rcases lt_or_gt_of_ne hS with hneg | hpos
  · have hE : Real.exp S - 1 < 0 := by
      rw [sub_neg]
      exact Real.exp_lt_one_iff.mpr hneg
    refine div_le_one_iff.mpr (Or.inr (Or.inr ⟨hE, ?_⟩))
    have : Real.exp S ≤ Real.exp (S * u) := Real.exp_le_exp.mpr (by nlinarith)
    linarith
  · have hE : 0 < Real.exp S - 1 := by
      rw [sub_pos]
      exact Real.one_lt_exp_iff.mpr hpos
    rw [div_le_one hE]
    have : Real.exp (S * u) ≤ Real.exp S := Real.exp_le_exp.mpr (by nlinarith)
    linarith

lemma exp_ratio_mono {S u1 u2 : ℝ} (hS : S ≠ 0) (h : u1 ≤ u2) :
    (Real.exp (S * u1) - 1) / (Real.exp S - 1) ≤
      (Real.exp (S * u2) - 1) / (Real.exp S - 1) := by
  rcases lt_or_gt_of_ne hS with hneg | hpos
  · have hE : Real.exp S - 1 < 0 := by
      rw [sub_neg]
      exact Real.exp_lt_one_iff.mpr hneg
    rw [div_le_div_right_of_neg hE]
    have : Real.exp (S * u2) ≤ Real.exp (S * u1) :=
      Real.exp_le_exp.mpr (by nlinarith)
    linarith
  · have hE : 0 < Real.exp S - 1 := by
      rw [sub_pos]
      exact Real.one_lt_exp_iff.mpr hpos
    rw [div_le_div_right hE]
    have : Real.exp (S * u1) ≤ Real.exp (S * u2) :=
      Real.exp_le_exp.mpr (by nlinarith)
    linarith

lemma interp_between {y1 y2 g : ℝ} (h0 : 0 ≤ g) (h1 : g ≤ 1) :
    min y1 y2 ≤ y1 + g * (y2 - y1) ∧ y1 + g * (y2 - y1) ≤ max y1 y2 := by
  rcases le_total y1 y2 with h | h
  · rw [min_eq_left h, max_eq_right h]
    constructor <;> nlinarith
  · rw [min_eq_right h, max_eq_left h]
    constructor <;> nlinarith

/-- Interior evaluation is a convex-style mix `y1 + g * (y2 - y1)` with a
mixing weight `g ∈ [0, 1]` in both the linear and the exponential branch. -/
lemma ParameterCurveSegment.value_at_between {s : ParameterCurveSegment}
    (hd : s.start_time < s.end_time) {t : ℝ} (h1 : s.start_time ≤ t) (h2 : t ≤ s.end_time) :
    min s.start_level s.end_level ≤ s.value_at t ∧
      s.value_at t ≤ max s.start_level s.end_level := by
  obtain ⟨st, en, y1, y2, S⟩ := s
  dsimp only at *
  rcases eq_or_lt_of_le h2 with rfl | h2'
  · rw [ParameterCurveSegment.value_at_end_time]
    exact ⟨min_le_right _ _, le_max_right _ _⟩
  rcases eq_or_lt_of_le h1 with rfl | h1'
  · rw [value_at_start_mk _ _ _ _ _ h2']
    exact ⟨min_le_left _ _, le_max_left _ _⟩
  have hu0 : 0 ≤ (t - st) / (en - st) := div_nonneg (by linarith) (by linarith)
  have hu1 : (t - st) / (en - st) ≤ 1 := by
    rw [div_le_one (by linarith)]
    linarith
  rw [value_at_interior_mk st en y1 y2 S t h1' h2']
  by_cases hlin : |S| < 0.000001
  · rw [if_pos hlin]
    have hmix := @interp_between y1 y2 _ hu0 hu1
    constructor
    · calc min y1 y2 ≤ y1 + (t - st) / (en - st) * (y2 - y1) := hmix.1
        _ = y1 + (t - st) / (en - st) * (y2 - y1) := rfl
    · exact hmix.2
  · rw [if_neg hlin]
    have hS : S ≠ 0 := shape_ne_zero_of_not_lt hlin
    have hg0 := exp_ratio_nonneg (u := (t - st) / (en - st)) hS hu0
    have hg1 := exp_ratio_le_one (u := (t - st) / (en - st)) hS hu1
    have hmix := @interp_between y1 y2 _ hg0 hg1
    have hrw : y1 + (y2 - y1) / (Real.exp S - 1) * (Real.exp (S * ((t - st) / (en - st))) - 1)
        = y1 + (Real.exp (S * ((t - st) / (en - st))) - 1) / (Real.exp S - 1) * (y2 - y1) := by
      ring
    rw [hrw]
    exact hmix

lemma ParameterCurveSegment.value_at_clip_high {s : ParameterCurveSegment} {t : ℝ}
    (h : s.end_time ≤ t) : s.value_at t = s.end_level := by
  rw [ParameterCurveSegment.value_at, if_pos (by simp [h])]

lemma ParameterCurveSegment.value_at_clip_low {s : ParameterCurveSegment} {t : ℝ}
    (h1 : t ≤ s.start_time) (h2 : ¬ s.end_time ≤ t) : s.value_at t = s.start_level := by
  rw [ParameterCurveSegment.value_at, if_neg (by simp [h2]), if_pos (by simp [h1])]

lemma ParameterCurveSegment.value_at_monotone {s : ParameterCurveSegment}
    (hd : s.start_time < s.end_time) (hy : s.start_level ≤ s.end_level)
    {t1 t2 : ℝ} (h12 : t1 ≤ t2) : s.value_at t1 ≤ s.value_at t2 := by
  have hrange : ∀ t, s.start_level ≤ s.value_at t ∧ s.value_at t ≤ s.end_level := by
    intro t
    rcases le_or_lt s.end_time t with hhi | hhi
    · rw [s.value_at_clip_high hhi]
      exact ⟨hy, le_rfl⟩
    rcases le_or_lt t s.start_time with hlo | hlo
    · rw [s.value_at_clip_low hlo (not_le.mpr hhi)]
      exact ⟨le_rfl, hy⟩
    · have := ParameterCurveSegment.value_at_between hd hlo.le hhi.le
      rw [min_eq_left hy, max_eq_right hy] at this
      exact this
  rcases le_or_lt s.end_time t1 with hhi | hhi
  · rw [s.value_at_clip_high hhi, s.value_at_clip_high (le_trans hhi h12)]
  rcases le_or_lt t2 s.start_time with hlo | hlo
  · rw [s.value_at_clip_low (le_trans h12 hlo)
        (not_le.mpr (lt_of_le_of_lt (le_trans h12 hlo) hd)),
      s.value_at_clip_low hlo (not_le.mpr (lt_of_le_of_lt hlo hd))]
  rcases le_or_lt t1 s.start_time with hlo1 | hlo1
  · rw [s.value_at_clip_low hlo1 (not_le.mpr hhi)]
    exact (hrange t2).1
  rcases le_or_lt s.end_time t2 with hhi2 | hhi2
  · rw [s.value_at_clip_high hhi2]
    exact (hrange t1).2
  obtain ⟨st, en, y1, y2, S⟩ := s
  dsimp only at *
  rw [value_at_interior_mk st en y1 y2 S t1 hlo1 hhi,
    value_at_interior_mk st en y1 y2 S t2 hlo hhi2]
  have hu12 : (t1 - st) / (en - st) ≤ (t2 - st) / (en - st) :=
    (div_le_div_right (by linarith)).mpr (by linarith)
  by_cases hlin : |S| < 0.000001
  · rw [if_pos hlin, if_pos hlin]
    nlinarith [hu12, hy]
  · rw [if_neg hlin, if_neg hlin]
    have hS := shape_ne_zero_of_not_lt hlin
    have hg := exp_ratio_mono (S := S) hS hu12
    have e1 : y1 + (y2 - y1) / (Real.exp S - 1) *
          (Real.exp (S * ((t1 - st) / (en - st))) - 1)
        = y1 + (Real.exp (S * ((t1 - st) / (en - st))) - 1) / (Real.exp S - 1) * (y2 - y1) := by
      ring
    have e2 : y1 + (y2 - y1) / (Real.exp S - 1) *
          (Real.exp (S * ((t2 - st) / (en - st))) - 1)
        = y1 + (Real.exp (S * ((t2 - st) / (en - st))) - 1) / (Real.exp S - 1) * (y2 - y1) := by
      ring
    rw [e1, e2]
    nlinarith [hg, hy]

lemma foldl_max_level_init (l : List ParameterCurveSegment) :
    ∀ m : ℝ, m ≤ l.foldl (fun a x => max a x.max_level) m := by
  induction l with
  | nil => intro m; exact le_rfl
  | cons x xs ih =>
      intro m
      calc m ≤ max m x.max_level := le_max_left _ _
        _ ≤ xs.foldl (fun a x => max a x.max_level) (max m x.max_level) := ih _

lemma foldl_max_level_mem (l : List ParameterCurveSegment) :
    ∀ (m : ℝ) (x), x ∈ l → x.max_level ≤ l.foldl (fun a x => max a x.max_level) m := by
  induction l with
  | nil => simp
  | cons y ys ih =>
      intro m x hx
      rcases List.mem_cons.mp hx with rfl | hx
      · calc x.max_level ≤ max m x.max_level := le_max_right _ _
          _ ≤ ys.foldl (fun a x => max a x.max_level) (max m x.max_level) :=
            foldl_max_level_init ys _
      · exact ih _ x hx

lemma ParameterCurve.max_level_is_ub (c : ParameterCurve) :
    ∀ s ∈ c.segments, s.max_level ≤ c.max_level := by
  intro s hs
  rw [ParameterCurve.max_level]
  cases hseg : c.segments with
  | nil => rw [hseg] at hs; simp at hs
  | cons f rest =>
      rw [hseg] at hs
      rcases List.mem_cons.mp hs with rfl | hs
      · exact foldl_max_level_init rest _
      · exact foldl_max_level_mem rest _ s hs

lemma headI_mem {α : Type} [Inhabited α] {l : List α} (h : l ≠ []) : l.headI ∈ l := by
  cases l with
  | nil => exact absurd rfl h
  | cons x xs => exact List.mem_cons_self x xs

lemma getLastD_mem {α : Type} {l : List α} (h : l ≠ []) (d : α) : l.getLastD d ∈ l := by
  induction l generalizing d with
  | nil => exact absurd rfl h
  | cons x xs ih =>
      rw [List.getLastD_cons]
      cases xs with
      | nil => simp [List.getLastD]
      | cons y ys => exact List.mem_cons_of_mem x (ih (by simp) x)

lemma value_at_scan_le {endLvl t M : ℝ} :
    ∀ {l : List ParameterCurveSegment}, endLvl ≤ M →
      (∀ s ∈ l, s.start_time ≤ t ∧ t < s.end_time → s.value_at t ≤ M) →
      ParameterCurve.value_at_scan endLvl t l ≤ M := by
  intro l
  induction l with
  | nil => intro h _; exact h
  | cons s rest ih =>
      intro h hall
      rw [ParameterCurve.value_at_scan]
      by_cases hc : s.start_time ≤ t ∧ t < s.end_time
      · rw [if_pos hc]
        exact hall s (by simp) hc
      · rw [if_neg hc]
        exact ih h fun r hr => hall r (by simp [hr])

lemma ParameterCurve.value_at_le_max_level {c : ParameterCurve} (h : c.Invariant) (t : ℝ) :
    c.value_at t ≤ c.max_level := by
  rw [ParameterCurve.value_at]
  by_cases ht : t < 0
  · rw [if_pos ht]
    have hmem : c.segments.headI ∈ c.segments := headI_mem h.1
    calc c.start_level ≤ c.segments.headI.max_level := le_max_left _ _
      _ ≤ c.max_level := c.max_level_is_ub _ hmem
  · rw [if_neg ht]
    refine value_at_scan_le ?_ ?_
    · have hmem : c.segments.getLastD default ∈ c.segments := getLastD_mem h.1 default
      calc c.end_level ≤ (c.segments.getLastD default).max_level := le_max_right _ _
        _ ≤ c.max_level := c.max_level_is_ub _ hmem
    · intro s hs hc
      have hmem : s ∈ c.segments := List.mem_reverse.mp hs
      have hd : s.start_time < s.end_time := lt_of_le_of_lt hc.1 hc.2
      calc s.value_at t ≤ max s.start_level s.end_level :=
            (ParameterCurveSegment.value_at_between hd hc.1 hc.2.le).2
        _ ≤ c.max_level := c.max_level_is_ub _ hmem

/-- **C9.**  Segment values are bounded by the endpoint levels and the
interpolation is monotone; `Segment.max_level` is the true (attained)
maximum of a positive-duration segment; and `Curve.max_level` is an
*upper bound* on the curve's values.  (The claim that `Curve.max_level` is
the *true maximum over the range* fails: `C9_counterexample` exhibits a
curve with a zero-length jump segment whose unattained interior level
makes `max_level` strictly larger than every value of the curve.) -/
theorem C9_segment_bounds_and_max_level :
    (∀ s : ParameterCurveSegment, s.start_time < s.end_time →
      ∀ t, s.start_time ≤ t → t ≤ s.end_time →
        min s.start_level s.end_level ≤ s.value_at t ∧
          s.value_at t ≤ max s.start_level s.end_level) ∧
    (∀ s : ParameterCurveSegment, s.start_time < s.end_time →
      s.start_level ≤ s.end_level → ∀ t1 t2, t1 ≤ t2 → s.value_at t1 ≤ s.value_at t2) ∧
    (∀ s : ParameterCurveSegment, s.start_time < s.end_time →
      ∃ t, s.start_time ≤ t ∧ t ≤ s.end_time ∧ s.value_at t = s.max_level) ∧
    (∀ c : ParameterCurve, c.Invariant → ∀ t, c.value_at t ≤ c.max_level) := by
  refine ⟨fun s hd t h1 h2 => ParameterCurveSegment.value_at_between hd h1 h2,
    fun s hd hy t1 t2 h12 => ParameterCurveSegment.value_at_monotone hd hy h12,
    fun s hd => ?_, fun c hInv t => ParameterCurve.value_at_le_max_level hInv t⟩
  rcases le_total s.start_level s.end_level with hy | hy
  · exact ⟨s.end_time, hd.le, le_rfl, by
      rw [ParameterCurveSegment.value_at_end_time, ParameterCurveSegment.max_level,
        max_eq_right hy]⟩
  · exact ⟨s.start_time, le_rfl, hd.le, by
      rw [ParameterCurveSegment.value_at_start_time hd, ParameterCurveSegment.max_level,
        max_eq_left hy]⟩

/-- A curve with an unattained jump level: a zero-length jump `5 → 1` at
time 0 followed by a linear descent `1 → 0` on `[0, 1]`. -/
noncomputable def c9jump : ParameterCurve := ⟨[⟨0, 0, 5, 1, 0⟩, ⟨0, 1, 1, 0, 0⟩]⟩

/-- **C9, counterexample.** `c9jump` satisfies the invariant, but its
`max_level` (`5`, the jump segment's start level) is never attained by
`value_at` on `[0, length]`: `Curve.max_level` is not the true maximum of
the curve over its range. -/
theorem C9_counterexample :
    c9jump.Invariant ∧
      ¬ ∃ t, 0 ≤ t ∧ t ≤ c9jump.length ∧ c9jump.value_at t = c9jump.max_level := by
  have hinv : c9jump.Invariant := ⟨by simp [c9jump], by norm_num [c9jump, chainFrom]⟩
  refine ⟨hinv, ?_⟩
  rintro ⟨t, h0, h1, heq⟩
  have hmax : c9jump.max_level = 5 := by
    norm_num [ParameterCurve.max_level, c9jump, ParameterCurveSegment.max_level]
  have hlen : c9jump.length = 1 := by
    norm_num [ParameterCurve.length, c9jump]
  have hb : c9jump.value_at t ≤ 1 := by
    rw [ParameterCurve.value_at, if_neg (not_lt.mpr h0)]
    have hrev : c9jump.segments.reverse = [⟨0, 1, 1, 0, 0⟩, ⟨0, 0, 5, 1, 0⟩] := rfl
    rw [hrev, ParameterCurve.value_at_scan]
    by_cases hc : (ParameterCurveSegment.mk 0 1 1 0 0).start_time ≤ t ∧
        t < (ParameterCurveSegment.mk 0 1 1 0 0).end_time
    · rw [if_pos hc]
      have := (ParameterCurveSegment.value_at_between (s := ⟨0, 1, 1, 0, 0⟩)
        (by norm_num) hc.1 hc.2.le).2
      simpa using this
    · rw [if_neg hc, ParameterCurve.value_at_scan,
        if_neg (fun hcon => absurd hcon.2 (not_lt.mpr h0)), ParameterCurve.value_at_scan]
      norm_num [ParameterCurve.end_level, c9jump]
  rw [hmax] at heq
  rw [heq] at hb
  norm_num at hb

/-- Witness for `C9_segment_bounds_and_max_level` at a concrete
exponential segment and a concrete curve. -/
theorem C9_segment_bounds_and_max_level_witness :
    ((ParameterCurveSegment.mk 0 1 2 6 3).start_time < (ParameterCurveSegment.mk 0 1 2 6 3).end_time ∧
      min (ParameterCurveSegment.mk 0 1 2 6 3).start_level (ParameterCurveSegment.mk 0 1 2 6 3).end_level ≤
        (ParameterCurveSegment.mk 0 1 2 6 3).value_at (1/3) ∧
      (ParameterCurveSegment.mk 0 1 2 6 3).value_at (1/3) ≤
        max (ParameterCurveSegment.mk 0 1 2 6 3).start_level (ParameterCurveSegment.mk 0 1 2 6 3).end_level ∧
      (ParameterCurveSegment.mk 0 1 2 6 3).value_at (1/3) ≤ (ParameterCurveSegment.mk 0 1 2 6 3).value_at (2/3) ∧
      (∃ t, (ParameterCurveSegment.mk 0 1 2 6 3).start_time ≤ t ∧
        t ≤ (ParameterCurveSegment.mk 0 1 2 6 3).end_time ∧
        (ParameterCurveSegment.mk 0 1 2 6 3).value_at t = (ParameterCurveSegment.mk 0 1 2 6 3).max_level)) ∧
    ((ParameterCurve.mk [⟨0, 1, 2, 6, 3⟩]).Invariant ∧
      (ParameterCurve.mk [⟨0, 1, 2, 6, 3⟩]).value_at (1/3) ≤
        (ParameterCurve.mk [⟨0, 1, 2, 6, 3⟩]).max_level) := by
  have hd : (ParameterCurveSegment.mk 0 1 2 6 3).start_time <
      (ParameterCurveSegment.mk 0 1 2 6 3).end_time := by norm_num
  have hy : (ParameterCurveSegment.mk 0 1 2 6 3).start_level ≤
      (ParameterCurveSegment.mk 0 1 2 6 3).end_level := by norm_num
  have hinv : (ParameterCurve.mk [⟨0, 1, 2, 6, 3⟩]).Invariant :=
    ⟨by simp, by norm_num [chainFrom]⟩
  have hbounds := C9_segment_bounds_and_max_level.1 _ hd (1/3) (by norm_num) (by norm_num)
  exact ⟨⟨hd, hbounds.1, hbounds.2,
      C9_segment_bounds_and_max_level.2.1 _ hd hy (1/3) (2/3) (by norm_num),
      C9_segment_bounds_and_max_level.2.2.1 _ hd⟩,
    ⟨hinv, C9_segment_bounds_and_max_level.2.2.2 _ hinv (1/3)⟩⟩

/-- `ParameterCurve.max_level` with an explicit `t_range = (t1, t2)`: the
maximum of the values at the endpoints and every segment anchor level
lying inside the range. -/
noncomputable def ParameterCurve.max_level_range (c : ParameterCurve) (t1 t2 : ℝ) : ℝ :=
  (c.segments.foldr (fun s acc =>
      (if t1 ≤ s.start_time ∧ s.start_time ≤ t2 then [s.start_level] else []) ++
      (if t1 ≤ s.end_time ∧ s.end_time ≤ t2 then [s.end_level] else []) ++ acc) []).foldl
    max (max (c.value_at t1) (c.value_at t2))

/-- Result of `get_upper_integration_bound`: a bound, a Python
`ZeroDivisionError`, or exhausted fuel (the recursion is unbounded). -/
inductive IntegrationBoundResult where
  | ok (t2 : ℝ)
  | divisionByZero
  | outOfFuel

/-- `ParameterCurve.get_upper_integration_bound`, with fuel for the
unbounded recursion and explicit division-by-zero outcomes at the two
places Python divides by a curve level. -/
noncomputable def get_upper_integration_boundF (c : ParameterCurve) :
    ℕ → ℝ → ℝ → ℝ → IntegrationBoundResult
  | 0, _, _, _ => .outOfFuel
  | fuel + 1, t1, desired_area, max_error =>
      if desired_area < max_error then .ok t1
      else
        let t1_level := c.value_at t1
        if t1_level = 0 then .divisionByZero
        else
          let t2_guess := desired_area / t1_level + t1
          let area := c.integrate_interval t1 t2_guess
          if area ≤ desired_area then
            if desired_area - area < max_error then .ok t2_guess
            else get_upper_integration_boundF c fuel t2_guess (desired_area - area) max_error
          else
            if c.max_level_range t1 t2_guess = 0 then .divisionByZero
            else
              let conservative_guess :=
                t1_level / c.max_level_range t1 t2_guess * (t2_guess - t1) + t1
              get_upper_integration_boundF c fuel conservative_guess
                (desired_area - c.integrate_interval t1 conservative_guess) max_error

/-- **C10.** `get_upper_integration_bound` divides by the curve level at
`t1` without a zero guard: when `value_at t1 = 0` and
`desired_area >= max_error` the call fails with a division-by-zero error
instead of returning a bound; when `desired_area < max_error` it returns
`t1` without evaluating the level. -/
theorem C10_division_by_zero_on_zero_level (c : ParameterCurve)
    (t1 desired_area max_error : ℝ) (fuel : ℕ) :
    (c.value_at t1 = 0 → max_error ≤ desired_area →
      get_upper_integration_boundF c (fuel + 1) t1 desired_area max_error =
        IntegrationBoundResult.divisionByZero) ∧
    (desired_area < max_error →
      get_upper_integration_boundF c (fuel + 1) t1 desired_area max_error =
        IntegrationBoundResult.ok t1) := by
  constructor
  · intro hzero hge
    rw [get_upper_integration_boundF, if_neg (not_lt.mpr hge)]
    simp [hzero]
  · intro hlt
    rw [get_upper_integration_boundF, if_pos hlt]

/-- Witness for `C10_division_by_zero_on_zero_level` at the constant-zero
curve. -/
theorem C10_division_by_zero_on_zero_level_witness :
    ((ParameterCurve.mk [⟨0, 1, 0, 0, 0⟩]).value_at 0 = 0 ∧ (1/1000 : ℝ) ≤ 2 ∧
      get_upper_integration_boundF (ParameterCurve.mk [⟨0, 1, 0, 0, 0⟩]) 5 0 2 (1/1000) =
        IntegrationBoundResult.divisionByZero) ∧
    ((1/2000 : ℝ) < 1/1000 ∧
      get_upper_integration_boundF (ParameterCurve.mk [⟨0, 1, 0, 0, 0⟩]) 5 0 (1/2000) (1/1000) =
        IntegrationBoundResult.ok 0) := by
  have hzero : (ParameterCurve.mk [⟨0, 1, 0, 0, 0⟩]).value_at 0 = 0 := by
    rw [ParameterCurve.value_at, if_neg (by norm_num)]
    show ParameterCurve.value_at_scan _ 0 [⟨0, 1, 0, 0, 0⟩] = 0
    rw [ParameterCurve.value_at_scan, if_pos (by norm_num)]
    rw [ParameterCurveSegment.value_at_start_time (s := ⟨0, 1, 0, 0, 0⟩) (by norm_num)]
  have h5 : (5:ℕ) = 4 + 1 := by norm_num
  exact ⟨⟨hzero, by norm_num,
      h5 ▸ (C10_division_by_zero_on_zero_level _ 0 2 (1/1000) 4).1 hzero (by norm_num)⟩,
    ⟨by norm_num,
      h5 ▸ (C10_division_by_zero_on_zero_level _ 0 (1/2000) (1/1000) 4).2 (by norm_num)⟩⟩

/-- The boundary-update else-branch of `ParameterCurve.insert`'s loop: at
an exact segment boundary only levels and shapes change, in Python's
order (`start` update first, then `end` update on the result). -/
noncomputable def insert_boundary_end_update (t level curve_shape_in : ℝ)
    (s1 : ParameterCurveSegment) : ParameterCurveSegment :=
  if t = s1.end_time then { s1 with end_level := level, curve_shape := curve_shape_in } else s1

noncomputable def insert_boundary_update (t level curve_shape_in curve_shape_out : ℝ)
    (s : ParameterCurveSegment) : ParameterCurveSegment :=
  insert_boundary_end_update t level curve_shape_in
    (if t = s.start_time then
      { s with start_level := level, curve_shape := curve_shape_out } else s)

/-- The segment loop of `ParameterCurve.insert` for `t <= length`: split
the segment strictly containing `t` (and stop), otherwise apply the
boundary updates and continue. -/
noncomputable def insert_list (t level curve_shape_in curve_shape_out : ℝ) :
    List ParameterCurveSegment → List ParameterCurveSegment
  | [] => []
  | s :: rest =>
      if s.start_time < t ∧ t < s.end_time then
        { s with end_time := t, curve_shape := curve_shape_in, end_level := level } ::
          ⟨t, s.end_time, level, s.end_level, curve_shape_out⟩ :: rest
      else
        insert_boundary_update t level curve_shape_in curve_shape_out s ::
          insert_list t level curve_shape_in curve_shape_out rest

/-- `ParameterCurve.append_segment` (no-op on the unreachable empty list,
where Python would raise an `IndexError`). -/
noncomputable def append_segment_list (level duration curve_shape tolerance : ℝ)
    (segs : List ParameterCurveSegment) : List ParameterCurveSegment :=
  if segs.isEmpty then segs
  else
    let last := segs.getLastD default
    if last.end_time - last.start_time = 0 then
      if duration = 0 then segs.dropLast ++ [{ last with end_level := level }]
      else if last.end_level ≠ last.start_level then
        segs.dropLast ++ [last,
          ⟨last.end_time, last.end_time + duration, last.end_level, level, curve_shape⟩]
      else
        segs.dropLast ++ [{ last with end_level := level, end_time := last.end_time + duration, curve_shape := curve_shape }]
    else if last.curve_shape = 0 ∧ curve_shape = 0 ∧
        |last.value_at (last.end_time + duration) false - level| ≤ tolerance then
      segs.dropLast ++ [{ last with end_time := last.end_time + duration, end_level := level }]
    else
      segs ++ [⟨last.end_time, last.end_time + duration, last.end_level, level, curve_shape⟩]

noncomputable def ParameterCurve.append_segment (c : ParameterCurve)
    (level duration : ℝ) (curve_shape : ℝ := 0) (tolerance : ℝ := 0) : ParameterCurve :=
  ⟨append_segment_list level duration curve_shape tolerance c.segments⟩

/-- `ParameterCurve.insert`. -/
noncomputable def ParameterCurve.insert (c : ParameterCurve) (t level : ℝ)
    (curve_shape_in : ℝ := 0) (curve_shape_out : ℝ := 0) : ParameterCurve :=
  if t > c.length then c.append_segment level (t - c.length) curve_shape_in
  else ⟨insert_list t level curve_shape_in curve_shape_out c.segments⟩

/-- `ParameterCurve.pop_segment`: `none` models the `IndexError` on a
fully degenerate curve (and on the unreachable empty list). -/
noncomputable def pop_segment_list :
    List ParameterCurveSegment → Option (List ParameterCurveSegment)
  | [] => none
  | [s] =>
      if s.end_time ≠ s.start_time ∨ s.end_level ≠ s.start_level then
        some [{ s with end_time := s.start_time, end_level := s.start_level }]
      else none
  | s :: r :: rest => some ((s :: r :: rest).dropLast)

noncomputable def ParameterCurve.pop_segment (c : ParameterCurve) : Option ParameterCurve :=
  (pop_segment_list c.segments).map ParameterCurve.mk

/-- The `while self.length() > t: self.pop_segment()` loop of
`remove_segments_after`, with fuel; `none` models a raised `IndexError`
or exhausted fuel (neither occurs under the invariant for `t >= 0`). -/
noncomputable def pop_loopF (t : ℝ) :
    ℕ → List ParameterCurveSegment → Option (List ParameterCurveSegment)
  | 0, _ => none
  | fuel + 1, segs =>
      if (ParameterCurve.mk segs).length > t then
        (pop_segment_list segs).bind (pop_loopF t fuel)
      else some segs

/-- The `while True: try pop / except break` loop of
`remove_segments_after` for `t < 0`: pop until popping raises. -/
noncomputable def pop_allF : ℕ → List ParameterCurveSegment → List ParameterCurveSegment
  | 0, segs => segs
  | fuel + 1, segs =>
      match pop_segment_list segs with
      | none => segs
      | some segs2 => pop_allF fuel segs2

/-- The index scan of `remove_segments_after`: find the first segment
whose start equals `t` (truncate there) or which strictly contains `t`
(insert an interpolated point, then truncate); fall through otherwise. -/
noncomputable def remove_loop (t : ℝ) (full : List ParameterCurveSegment) :
    List ParameterCurveSegment → Option (List ParameterCurveSegment)
  | [] => some full
  | s :: rest =>
      if t = s.start_time then pop_loopF t (full.length + 2) full
      else if s.start_time < t ∧ t < s.end_time then
        pop_loopF t ((insert_interpolated_list t full).length + 2)
          (insert_interpolated_list t full)
      else remove_loop t full rest

/-- `ParameterCurve.remove_segments_after`. -/
noncomputable def ParameterCurve.remove_segments_after (c : ParameterCurve) (t : ℝ) :
    Option ParameterCurve :=
  let segs1 := if t < 0 then pop_allF (c.segments.length + 2) c.segments else c.segments
  (remove_loop t segs1 segs1).map ParameterCurve.mk

lemma insert_boundary_end_update_start_time (t level ci : ℝ) (s1 : ParameterCurveSegment) :
    (insert_boundary_end_update t level ci s1).start_time = s1.start_time := by
  unfold insert_boundary_end_update
  split_ifs <;> rfl

lemma insert_boundary_end_update_end_time (t level ci : ℝ) (s1 : ParameterCurveSegment) :
    (insert_boundary_end_update t level ci s1).end_time = s1.end_time := by
  unfold insert_boundary_end_update
  split_ifs <;> rfl

lemma insert_boundary_update_start_time (t level ci co : ℝ) (s : ParameterCurveSegment) :
    (insert_boundary_update t level ci co s).start_time = s.start_time := by
  unfold insert_boundary_update
  rw [insert_boundary_end_update_start_time]
  split_ifs <;> rfl

lemma insert_boundary_update_end_time (t level ci co : ℝ) (s : ParameterCurveSegment) :
    (insert_boundary_update t level ci co s).end_time = s.end_time := by
  unfold insert_boundary_update
  rw [insert_boundary_end_update_end_time]
  split_ifs <;> rfl

lemma insert_list_chain {t level ci co : ℝ} :
    ∀ {τ : ℝ} {segs : List ParameterCurveSegment}, chainFrom τ segs →
      chainFrom τ (insert_list t level ci co segs) := by
  intro τ segs
  induction segs generalizing τ with
  | nil => intro h; exact h
  | cons s rest ih =>
      intro h
      obtain ⟨hst, hd, hrest⟩ := h
      rw [insert_list]
      by_cases hc : s.start_time < t ∧ t < s.end_time
      · rw [if_pos hc]
        exact ⟨hst, hc.1.le, rfl, hc.2.le, hrest⟩
      · rw [if_neg hc]
        exact ⟨(insert_boundary_update_start_time t level ci co s).trans hst,
          (insert_boundary_update_start_time t level ci co s).le.trans
            (le_of_le_of_eq hd (insert_boundary_update_end_time t level ci co s).symm),
          (insert_boundary_update_end_time t level ci co s).symm ▸ ih hrest⟩

lemma insert_list_ne_nil {t level ci co : ℝ} {segs : List ParameterCurveSegment}
    (h : segs ≠ []) : insert_list t level ci co segs ≠ [] := by
  cases segs with
  | nil => exact absurd rfl h
  | cons s rest =>
      rw [insert_list]
      split_ifs <;> simp

lemma insert_interpolated_list_chain {t : ℝ} :
    ∀ {τ : ℝ} {segs : List ParameterCurveSegment}, chainFrom τ segs →
      chainFrom τ (insert_interpolated_list t segs) := by
  intro τ segs
  induction segs generalizing τ with
  | nil => intro h; exact h
  | cons s rest ih =>
      intro h
      obtain ⟨hst, hd, hrest⟩ := h
      rw [insert_interpolated_list]
      by_cases h1 : t = s.start_time
      · rw [if_pos h1]
        exact ⟨hst, hd, hrest⟩
      · by_cases h2 : s.start_time ≤ t ∧ t < s.end_time
        · rw [if_neg h1, if_pos h2]
          exact ⟨hst, lt_of_le_of_ne h2.1 (Ne.symm h1) |>.le, rfl, h2.2.le, hrest⟩
        · rw [if_neg h1, if_neg h2]
          exact ⟨hst, hd, ih hrest⟩

lemma insert_interpolated_list_ne_nil {t : ℝ} {segs : List ParameterCurveSegment}
    (h : segs ≠ []) : insert_interpolated_list t segs ≠ [] := by
  cases segs with
  | nil => exact absurd rfl h
  | cons s rest =>
      rw [insert_interpolated_list]
      split_ifs <;> simp

lemma getLastD_concat_self {α : Type} (xs : List α) (a d : α) :
    (xs ++ [a]).getLastD d = a := by
  rw [getLastD_append_cons]
  rfl

lemma append_segment_list_invariant {level duration curve_shape tolerance : ℝ}
    {segs : List ParameterCurveSegment} (hne : segs ≠ []) (hchain : chainFrom 0 segs)
    (hdur : 0 ≤ duration) :
    append_segment_list level duration curve_shape tolerance segs ≠ [] ∧
      chainFrom 0 (append_segment_list level duration curve_shape tolerance segs) := by
  obtain ⟨xs, l, rfl⟩ : ∃ xs l, segs = xs ++ [l] := by
    rcases List.eq_nil_or_concat segs with h | ⟨xs, l, h⟩
    · exact absurd h hne
    · exact ⟨xs, l, by rw [h, List.concat_eq_append]⟩
  have hlast : (xs ++ [l]).getLastD default = l := getLastD_concat_self xs l default
  have hdrop : (xs ++ [l]).dropLast = xs := List.dropLast_concat ..
  obtain ⟨hxs, hl⟩ := chainFrom_append.mp hchain
  obtain ⟨hlst, hld, -⟩ := hl
  rw [append_segment_list, if_neg (by simp), hlast, hdrop]
  by_cases hzero : l.end_time - l.start_time = 0
  · rw [if_pos hzero]
    by_cases hd0 : duration = 0
    · rw [if_pos hd0]
      refine ⟨by simp, chainFrom_append.mpr ⟨hxs, ?_⟩⟩
      exact ⟨hlst, hld, trivial⟩
    · rw [if_neg hd0]
      have hdpos : 0 < duration := lt_of_le_of_ne hdur (Ne.symm hd0)
      by_cases hlev : l.end_level ≠ l.start_level
      · rw [if_pos hlev]
        refine ⟨by simp, chainFrom_append.mpr ⟨hxs, ?_⟩⟩
        exact ⟨hlst, hld, rfl, by simp only; linarith, trivial⟩
      · rw [if_neg hlev]
        refine ⟨by simp, chainFrom_append.mpr ⟨hxs, ?_⟩⟩
        refine ⟨hlst, ?_, trivial⟩
        show l.start_time ≤ l.end_time + duration
        linarith
  · rw [if_neg hzero]
    by_cases hcont : l.curve_shape = 0 ∧ curve_shape = 0 ∧
        |l.value_at (l.end_time + duration) false - level| ≤ tolerance
    · rw [if_pos hcont]
      refine ⟨by simp, chainFrom_append.mpr ⟨hxs, ?_⟩⟩
      refine ⟨hlst, ?_, trivial⟩
      show l.start_time ≤ l.end_time + duration
      linarith
    · rw [if_neg hcont]
      refine ⟨by simp, ?_⟩
      rw [List.append_assoc]
      refine chainFrom_append.mpr ⟨hxs, ?_⟩
      exact ⟨hlst, hld, rfl, by simp only; linarith, trivial⟩

/-- Invariant preservation for `append_segment` (durations are
non-negative in the data model). -/
lemma ParameterCurve.append_segment_invariant {c : ParameterCurve} (h : c.Invariant)
    {level duration curve_shape tolerance : ℝ} (hdur : 0 ≤ duration) :
    (c.append_segment level duration curve_shape tolerance).Invariant :=
  append_segment_list_invariant h.1 h.2 hdur

lemma ParameterCurve.insert_invariant {c : ParameterCurve} (h : c.Invariant)
    {t level curve_shape_in curve_shape_out : ℝ} (ht : 0 ≤ t) :
    (c.insert t level curve_shape_in curve_shape_out).Invariant := by
  rw [ParameterCurve.insert]
  by_cases hgt : t > c.length
  · rw [if_pos hgt]
    exact c.append_segment_invariant h (by linarith)
  · rw [if_neg hgt]
    exact ⟨insert_list_ne_nil h.1, insert_list_chain h.2⟩

lemma ParameterCurve.insert_interpolated_invariant {c : ParameterCurve} (h : c.Invariant)
    {t : ℝ} : (c.insert_interpolated t).Invariant := by
  rw [ParameterCurve.insert_interpolated]
  by_cases hlen : t = c.length
  · rw [if_pos hlen]; exact h
  · rw [if_neg hlen]
    exact ⟨insert_interpolated_list_ne_nil h.1, insert_interpolated_list_chain h.2⟩

lemma pop_segment_list_invariant {segs segs2 : List ParameterCurveSegment}
    (hne : segs ≠ []) (hchain : chainFrom 0 segs)
    (hp : pop_segment_list segs = some segs2) : segs2 ≠ [] ∧ chainFrom 0 segs2 := by
  match segs, hp with
  | [s], hp =>
      rw [pop_segment_list] at hp
      by_cases hcond : s.end_time ≠ s.start_time ∨ s.end_level ≠ s.start_level
      · rw [if_pos hcond] at hp
        obtain ⟨hst, hd, -⟩ := hchain
        cases hp.symm
        exact ⟨by simp, hst, le_rfl, trivial⟩
      · rw [if_neg hcond] at hp
        cases hp
  | s :: r :: rest, hp =>
      rw [pop_segment_list] at hp
      cases hp.symm
      constructor
      · simp [List.dropLast]
      · have : s :: r :: rest = (s :: r :: rest).dropLast ++ [(s :: r :: rest).getLast (by simp)] :=
          (List.dropLast_append_getLast (by simp)).symm
        rw [this] at hchain
        exact (chainFrom_append.mp hchain).1

lemma option_some_bind {α β : Type} (x : α) (f : α → Option β) : (some x).bind f = f x := rfl

lemma pop_loopF_some {t : ℝ} (ht : 0 ≤ t) :
    ∀ (n : ℕ) (segs : List ParameterCurveSegment), segs ≠ [] → chainFrom 0 segs →
      segs.length + 2 ≤ n →
      ∃ segs2, pop_loopF t n segs = some segs2 ∧ segs2 ≠ [] ∧ chainFrom 0 segs2 := by
  intro n
  induction n with
  | zero => intro segs _ _ hlen; omega
  | succ fuel ih =>
      intro segs hne hchain hlen
      rw [pop_loopF]
      by_cases hcond : (ParameterCurve.mk segs).length > t
      · rw [if_pos hcond]
        match segs, hne, hchain, hlen with
        | [s], _, hchain, hlen =>
            obtain ⟨hst, hd, -⟩ := hchain
            have hend : t < s.end_time := by
              simpa [ParameterCurve.length] using hcond
            have hpop : pop_segment_list [s] = some
                [{ s with end_time := s.start_time, end_level := s.start_level }] := by
              rw [pop_segment_list, if_pos (Or.inl (by
                intro hcon
                rw [hcon, hst] at hend
                linarith))]
            rw [hpop, option_some_bind]
            obtain ⟨f, rfl⟩ : ∃ f, fuel = f + 1 := ⟨fuel - 1, by simp at hlen; omega⟩
            rw [pop_loopF, if_neg (by
              show ¬ (ParameterCurve.mk _).length > t
              simp only [ParameterCurve.length, List.getLastD_cons, List.getLastD_nil]
              show ¬ t < s.start_time
              rw [hst]
              exact not_lt.mpr ht)]
            exact ⟨_, rfl, by simp, by exact ⟨hst, le_rfl, trivial⟩⟩
        | s :: r :: rest, _, hchain, hlen =>
            have hpop : pop_segment_list (s :: r :: rest) =
                some ((s :: r :: rest).dropLast) := rfl
            rw [hpop, option_some_bind]
            obtain ⟨hne2, hchain2⟩ :=
              pop_segment_list_invariant (by simp) hchain hpop
            refine ih _ hne2 hchain2 ?_
            simp only [List.length_dropLast, List.length_cons] at *
            omega
      · rw [if_neg hcond]
        exact ⟨segs, rfl, hne, hchain⟩

lemma pop_allF_invariant :
    ∀ (n : ℕ) (segs : List ParameterCurveSegment), segs ≠ [] → chainFrom 0 segs →
      pop_allF n segs ≠ [] ∧ chainFrom 0 (pop_allF n segs) := by
  intro n
  induction n with
  | zero => intro segs hne hchain; exact ⟨hne, hchain⟩
  | succ fuel ih =>
      intro segs hne hchain
      rw [pop_allF]
      cases hpop : pop_segment_list segs with
      | none => exact ⟨hne, hchain⟩
      | some segs2 =>
          obtain ⟨hne2, hchain2⟩ := pop_segment_list_invariant hne hchain hpop
          exact ih segs2 hne2 hchain2

lemma remove_loop_some {t : ℝ} (ht : 0 ≤ t) {full : List ParameterCurveSegment}
    (hne : full ≠ []) (hchain : chainFrom 0 full) :
    ∀ scan, ∃ res, remove_loop t full scan = some res ∧ res ≠ [] ∧ chainFrom 0 res := by
  intro scan
  induction scan with
  | nil => exact ⟨full, rfl, hne, hchain⟩
  | cons s rest ih =>
      rw [remove_loop]
      by_cases h1 : t = s.start_time
      · rw [if_pos h1]
        exact pop_loopF_some ht _ full hne hchain le_rfl
      · rw [if_neg h1]
        by_cases h2 : s.start_time < t ∧ t < s.end_time
        · rw [if_pos h2]
          exact pop_loopF_some ht _ _ (insert_interpolated_list_ne_nil hne)
            (insert_interpolated_list_chain hchain) le_rfl
        · rw [if_neg h2]
          exact ih

lemma remove_loop_no_match {t : ℝ} {full : List ParameterCurveSegment} :
    ∀ scan, (∀ s ∈ scan, t < s.start_time) → remove_loop t full scan = some full := by
  intro scan
  induction scan with
  | nil => intro _; rfl
  | cons s rest ih =>
      intro h
      have hs := h s (by simp)
      rw [remove_loop, if_neg (ne_of_lt hs), if_neg (by
        intro hcon
        exact absurd hcon.1 (not_lt.mpr hs.le))]
      exact ih fun r hr => h r (by simp [hr])

lemma ParameterCurve.remove_segments_after_invariant {c : ParameterCurve} (h : c.Invariant)
    (t : ℝ) : ∃ c2, c.remove_segments_after t = some c2 ∧ c2.Invariant := by
  rw [ParameterCurve.remove_segments_after]
  by_cases hneg : t < 0
  · simp only [if_pos hneg]
    obtain ⟨hne1, hchain1⟩ :=
      pop_allF_invariant (c.segments.length + 2) c.segments h.1 h.2
    have hnm : ∀ s ∈ pop_allF (c.segments.length + 2) c.segments, t < s.start_time :=
      fun s hs => lt_of_lt_of_le hneg (chainFrom_start_ge hchain1 s hs)
    rw [remove_loop_no_match _ hnm, Option.map_some']
    exact ⟨_, rfl, hne1, hchain1⟩
  · simp only [if_neg hneg]
    obtain ⟨res, hres, hne2, hchain2⟩ :=
      remove_loop_some (not_lt.mp hneg) h.1 h.2 c.segments
    rw [hres, Option.map_some']
    exact ⟨_, rfl, hne2, hchain2⟩

lemma ParameterCurve.pop_segment_invariant {c : ParameterCurve} (h : c.Invariant)
    {c2 : ParameterCurve} (hp : c.pop_segment = some c2) : c2.Invariant := by
  rw [ParameterCurve.pop_segment] at hp
  cases hpop : pop_segment_list c.segments with
  | none => rw [hpop] at hp; cases hp
  | some segs2 =>
      rw [hpop, Option.map_some'] at hp
      cases hp.symm
      exact pop_segment_list_invariant h.1 h.2 hpop

/-- **C5.** The structural invariant (non-empty; sorted, contiguous,
non-negative-duration segments; first start time 0) is preserved by every
public mutation: `insert` (`t >= 0`), `insert_interpolated`
(`0 <= t <= length`), `append_segment` (non-negative duration, per the
data model), `pop_segment` when it does not raise, and
`remove_segments_after` (which, under the invariant, always succeeds). -/
theorem C5_invariant_preservation :
    (∀ (c : ParameterCurve) (t level curve_shape_in curve_shape_out : ℝ), c.Invariant →
      0 ≤ t → (c.insert t level curve_shape_in curve_shape_out).Invariant) ∧
    (∀ (c : ParameterCurve) (t : ℝ), c.Invariant → 0 ≤ t → t ≤ c.length →
      (c.insert_interpolated t).Invariant) ∧
    (∀ (c : ParameterCurve) (level duration curve_shape tolerance : ℝ), c.Invariant →
      0 ≤ duration → (c.append_segment level duration curve_shape tolerance).Invariant) ∧
    (∀ (c c2 : ParameterCurve), c.Invariant → c.pop_segment = some c2 → c2.Invariant) ∧
    (∀ (c : ParameterCurve) (t : ℝ), c.Invariant →
      ∃ c2, c.remove_segments_after t = some c2 ∧ c2.Invariant) :=
  ⟨fun _ _ _ _ _ h ht => ParameterCurve.insert_invariant h ht,
   fun _ _ h _ _ => ParameterCurve.insert_interpolated_invariant h,
   fun _ _ _ _ _ h hd => ParameterCurve.append_segment_invariant h hd,
   fun _ _ h hp => ParameterCurve.pop_segment_invariant h hp,
   fun c t h => ParameterCurve.remove_segments_after_invariant h t⟩

/-- Witness for `C5_invariant_preservation`: all five mutations applied to
the concrete curve `[(0,1, 0→2), (1,2, 2→5)]`. -/
theorem C5_invariant_preservation_witness :
    (ParameterCurve.mk [⟨0, 1, 0, 2, 0⟩, ⟨1, 2, 2, 5, 0⟩]).Invariant ∧
      ((ParameterCurve.mk [⟨0, 1, 0, 2, 0⟩, ⟨1, 2, 2, 5, 0⟩]).insert (1/2) 7 0 0).Invariant ∧
      ((ParameterCurve.mk [⟨0, 1, 0, 2, 0⟩, ⟨1, 2, 2, 5, 0⟩]).insert_interpolated (3/2)).Invariant ∧
      ((ParameterCurve.mk [⟨0, 1, 0, 2, 0⟩, ⟨1, 2, 2, 5, 0⟩]).append_segment 9 (1/2) 0 0).Invariant ∧
      (∀ c2, (ParameterCurve.mk [⟨0, 1, 0, 2, 0⟩, ⟨1, 2, 2, 5, 0⟩]).pop_segment = some c2 →
        c2.Invariant) ∧
      (∃ c2, (ParameterCurve.mk [⟨0, 1, 0, 2, 0⟩, ⟨1, 2, 2, 5, 0⟩]).remove_segments_after (1/2) =
        some c2 ∧ c2.Invariant) := by
  have hinv : (ParameterCurve.mk [⟨0, 1, 0, 2, 0⟩, ⟨1, 2, 2, 5, 0⟩]).Invariant :=
    ⟨by simp, by norm_num [chainFrom]⟩
  have hlen : (ParameterCurve.mk [⟨0, 1, 0, 2, 0⟩, ⟨1, 2, 2, 5, 0⟩]).length = 2 := by
    norm_num [ParameterCurve.length]
  exact ⟨hinv,
    C5_invariant_preservation.1 _ (1/2) 7 0 0 hinv (by norm_num),
    C5_invariant_preservation.2.1 _ (3/2) hinv (by norm_num) (by rw [hlen]; norm_num),
    C5_invariant_preservation.2.2.1 _ 9 (1/2) 0 0 hinv (by norm_num),
    fun c2 hp => C5_invariant_preservation.2.2.2.1 _ c2 hinv hp,
    C5_invariant_preservation.2.2.2.2 _ (1/2) hinv⟩

/-- `levels` property: each segment's start level, plus the end level. -/
noncomputable def ParameterCurve.levels (c : ParameterCurve) : List ℝ :=
  c.segments.map (fun s => s.start_level) ++ [c.end_level]

/-- `durations` property. -/
noncomputable def ParameterCurve.durations (c : ParameterCurve) : List ℝ :=
  c.segments.map fun s => s.end_time - s.start_time

/-- `curve_shapes` property. -/
noncomputable def ParameterCurve.curve_shapes (c : ParameterCurve) : List ℝ :=
  c.segments.map fun s => s.curve_shape

/-- `_construct_segments_list`: build contiguous segments from levels,
durations and shapes, accumulating the running time. -/
noncomputable def construct_segments_list :
    ℝ → List ℝ → List ℝ → List ℝ → List ParameterCurveSegment
  | t, l1 :: l2 :: ls, d :: ds, k :: ks =>
      ⟨t, t + d, l1, l2, k⟩ :: construct_segments_list (t + d) (l2 :: ls) ds ks
  | _, _, _, _ => []

/-- `from_levels_and_durations` / `initialize`: a single level is doubled;
omitted curve shapes default to all-linear. -/
noncomputable def from_levels_and_durations (levels durations : List ℝ)
    (curve_shapes : Option (List ℝ)) : ParameterCurve :=
  let levels := if levels.length = 1 then levels ++ levels else levels
  let curve_shapes := curve_shapes.getD (List.replicate (levels.length - 1) 0)
  ⟨construct_segments_list 0 levels durations curve_shapes⟩

/-- `from_levels`: evenly spaced linear segments normalized to `length`. -/
noncomputable def from_levels (levels : List ℝ) (length : ℝ) : ParameterCurve :=
  let levels := if levels.length = 1 then levels ++ levels else levels
  from_levels_and_durations levels
    (List.replicate (levels.length - 1) (length / ((levels.length - 1 : ℕ) : ℝ)))
    (some (List.replicate (levels.length - 1) 0))

/-- The four compact serialized forms produced by `to_json`. -/
inductive CompactJSON where
  | levelsOnly (levels : List ℝ)
  | levelsLength (levels : List ℝ) (length : ℝ)
  | levelsDurations (levels durations : List ℝ)
  | levelsDurationsShapes (levels durations curve_shapes : List ℝ)

/-- `ParameterCurve.to_json`: pick the shortest of the four encodings. -/
noncomputable def ParameterCurve.to_json (c : ParameterCurve) : CompactJSON :=
  if (∀ x ∈ c.durations, x = c.durations.headI) ∧ (∀ x ∈ c.curve_shapes, x = 0) then
    if c.length = 1 then CompactJSON.levelsOnly c.levels
    else CompactJSON.levelsLength c.levels c.length
  else if ∀ x ∈ c.curve_shapes, x = 0 then CompactJSON.levelsDurations c.levels c.durations
  else CompactJSON.levelsDurationsShapes c.levels c.durations c.curve_shapes

/-- `from_list` / `from_json`: decode any of the four forms. -/
noncomputable def from_list : CompactJSON → ParameterCurve
  | CompactJSON.levelsOnly levels => from_levels levels 1
  | CompactJSON.levelsLength levels length => from_levels levels length
  | CompactJSON.levelsDurations levels durations =>
      from_levels_and_durations levels durations none
  | CompactJSON.levelsDurationsShapes levels durations curve_shapes =>
      from_levels_and_durations levels durations (some curve_shapes)

/-- Adjacent segments agree on the shared boundary level (true of every
curve built by the constructors and preserved by the mutations, but not
part of the four structural-invariant conditions). -/
def levelContiguous : List ParameterCurveSegment → Prop
  | [] => True
  | [_] => True
  | s :: r :: rest => s.end_level = r.start_level ∧ levelContiguous (r :: rest)

lemma construct_segments_list_cons (t l1 l2 : ℝ) (ls : List ℝ) (d : ℝ) (ds : List ℝ)
    (k : ℝ) (ks : List ℝ) :
    construct_segments_list t (l1 :: l2 :: ls) (d :: ds) (k :: ks) =
      ⟨t, t + d, l1, l2, k⟩ :: construct_segments_list (t + d) (l2 :: ls) ds ks := rfl

lemma construct_segments_list_single (t l1 : ℝ) :
    construct_segments_list t [l1] [] [] = [] := rfl

lemma construct_reconstruct :
    ∀ (segs : List ParameterCurveSegment) (τ : ℝ), segs ≠ [] → chainFrom τ segs →
      levelContiguous segs →
      construct_segments_list τ
        (segs.map (fun s => s.start_level) ++ [(segs.getLastD default).end_level])
        (segs.map fun s => s.end_time - s.start_time)
        (segs.map fun s => s.curve_shape) = segs := by
  intro segs
  induction segs with
  | nil => intro τ h; exact absurd rfl h
  | cons s rest ih =>
      intro τ _ hchain hlev
      obtain ⟨hst, hd, hrest⟩ := hchain
      subst hst
      have htime : s.start_time + (s.end_time - s.start_time) = s.end_time := by ring
      cases rest with
      | nil =>
          simp only [List.map_cons, List.map_nil, List.cons_append, List.nil_append,
            List.getLastD_cons, List.getLastD_nil]
          rw [construct_segments_list_cons, construct_segments_list_single, htime]
      | cons r rs =>
          obtain ⟨hlev1, hlev2⟩ := hlev
          simp only [List.map_cons, List.cons_append, getLastD_cons_cons]
          rw [construct_segments_list_cons, htime]
          congr 1
          · show ParameterCurveSegment.mk s.start_time s.end_time s.start_level
              r.start_level s.curve_shape = s
            rw [← hlev1]
          · have := ih s.end_time (by simp) hrest hlev2
            simpa only [List.map_cons, List.cons_append] using this

lemma sum_of_all_eq {l : List ℝ} {a : ℝ} (h : ∀ x ∈ l, x = a) :
    l.sum = l.length * a := by
  induction l with
  | nil => simp
  | cons x xs ih =>
      rw [List.sum_cons, ih (fun y hy => h y (by simp [hy])), h x (by simp),
        List.length_cons]
      push_cast
      ring

lemma chainEnd_eq_sum {τ : ℝ} {segs : List ParameterCurveSegment} :
    chainFrom τ segs → chainEnd τ segs = τ + (segs.map fun s => s.end_time - s.start_time).sum := by
  induction segs generalizing τ with
  | nil => intro _; simp [chainEnd]
  | cons s rest ih =>
      intro h
      obtain ⟨hst, _, hrest⟩ := h
      rw [chainEnd, ih hrest, List.map_cons, List.sum_cons, hst]
      ring

lemma from_list_to_json {c : ParameterCurve} (h : c.Invariant)
    (hlev : levelContiguous c.segments) : from_list c.to_json = c := by
  obtain ⟨hne, hchain⟩ := h
  have hrec' : construct_segments_list 0 c.levels c.durations c.curve_shapes = c.segments :=
    construct_reconstruct c.segments 0 hne hchain hlev
  have hlen1 : c.levels.length = c.segments.length + 1 := by
    show (c.segments.map (fun s => s.start_level) ++ [c.end_level]).length =
      c.segments.length + 1
    simp
  have hnon1 : ¬ c.levels.length = 1 := by
    rw [hlen1]
    have : c.segments.length ≠ 0 := fun hc => hne (List.length_eq_zero.mp hc)
    omega
  have hdurlen : c.durations.length = c.segments.length := by
    simp [ParameterCurve.durations]
  have hshlen : c.curve_shapes.length = c.segments.length := by
    simp [ParameterCurve.curve_shapes]
  rw [ParameterCurve.to_json]
  by_cases hflat : ∀ x ∈ c.curve_shapes, x = 0
  case neg =>
    rw [if_neg (fun hcon => hflat hcon.2), if_neg hflat]
    show from_levels_and_durations c.levels c.durations (some c.curve_shapes) = c
    rw [from_levels_and_durations]
    simp only [if_neg hnon1, Option.getD_some]
    rw [hrec']
  case pos =>
    have hsh : List.replicate (c.levels.length - 1) (0:ℝ) = c.curve_shapes := by
      symm
      refine List.eq_replicate_iff.mpr ⟨by rw [hshlen, hlen1]; omega, hflat⟩
    by_cases heven : ∀ x ∈ c.durations, x = c.durations.headI
    case neg =>
      rw [if_neg (fun hcon => heven hcon.1), if_pos hflat]
      show from_levels_and_durations c.levels c.durations none = c
      rw [from_levels_and_durations]
      simp only [if_neg hnon1, Option.getD_none]
      rw [hsh, hrec']
    case pos =>
      rw [if_pos ⟨heven, hflat⟩]
      have hsum : c.length = (c.segments.length : ℝ) * c.durations.headI := by
        have h1 : c.length = chainEnd 0 c.segments := (chainEnd_eq_getLast hne).symm
        rw [h1, chainEnd_eq_sum hchain, zero_add]
        have h2 := sum_of_all_eq heven
        rw [show (c.segments.map fun s => s.end_time - s.start_time) = c.durations from rfl,
          h2, hdurlen]
      have hkey : from_levels c.levels c.length = c := by
        rw [from_levels]
        simp only [if_neg hnon1]
        rw [from_levels_and_durations]
        simp only [if_neg hnon1, Option.getD_some]
        have hdur' : List.replicate (c.levels.length - 1)
            (c.length / ((c.levels.length - 1 : ℕ) : ℝ)) = c.durations := by
          rw [hlen1, Nat.add_sub_cancel]
          have hlenpos : 0 < c.segments.length := List.length_pos.mpr hne
          have hne0 : ((c.segments.length : ℕ) : ℝ) ≠ 0 :=
            Nat.cast_ne_zero.mpr (by omega)
          rw [hsum, mul_div_cancel_left₀ _ hne0]
          symm
          exact List.eq_replicate_iff.mpr ⟨by rw [hdurlen], heven⟩
        rw [hdur']
        have hsh2 : List.replicate (c.levels.length - 1) (0:ℝ) = c.curve_shapes := hsh
        rw [hsh2, hrec']
      by_cases hL1 : c.length = 1
      · rw [if_pos hL1]
        show from_levels c.levels 1 = c
        rw [← hL1]
        exact hkey
      · rw [if_neg hL1]
        exact hkey

/-- **C4.** Serialization round-trips *for level-contiguous curves*:
decoding `to_json`'s output with `from_list` reproduces the exact segment
list, hence `value_at` everywhere.  (For curves whose adjacent segments
disagree on the shared boundary level — allowed by the four structural
invariant conditions — the `levels` view drops the interior end levels and
the round trip changes values: see `C4_counterexample`.) -/
theorem C4_serialization_round_trip (c : ParameterCurve) (h : c.Invariant)
    (hlev : levelContiguous c.segments) :
    ∀ x, 0 ≤ x → x ≤ c.length → (from_list c.to_json).value_at x = c.value_at x := by
  intro x _ _
  rw [from_list_to_json h hlev]

/-- A curve whose adjacent segments disagree on the boundary level
(`5` vs `7` at time 1) — allowed by the structural invariant. -/
noncomputable def c4disc : ParameterCurve := ⟨[⟨0, 1, 0, 5, 0⟩, ⟨1, 2, 7, 9, 0⟩]⟩

/-- **C4, counterexample.** `c4disc` satisfies the structural invariant,
but serialization drops its interior end level `5` (the `levels` view
keeps only start levels plus the final end level), so decoding
`to_json`'s output changes `value_at` at `x = 1/2` from `5/2` to `7/2`. -/
theorem C4_counterexample :
    c4disc.Invariant ∧ (from_list c4disc.to_json).value_at (1/2) ≠ c4disc.value_at (1/2) := by
  have hinv : c4disc.Invariant := ⟨by simp [c4disc], by norm_num [c4disc, chainFrom]⟩
  refine ⟨hinv, ?_⟩
  have hdur : c4disc.durations = [1, 1] := by
    show [(1:ℝ) - 0, 2 - 1] = [1, 1]
    norm_num
  have hsh : c4disc.curve_shapes = [0, 0] := rfl
  have hlevels : c4disc.levels = [0, 7, 9] := rfl
  have hlen : c4disc.length = 2 := rfl
  have hjson : c4disc.to_json = CompactJSON.levelsLength [0, 7, 9] 2 := by
    rw [ParameterCurve.to_json, if_pos, if_neg]
    · rw [hlevels, hlen]
    · rw [hlen]; norm_num
    · rw [hdur, hsh]
      norm_num
  have hdecode : from_list (CompactJSON.levelsLength [0, 7, 9] 2) =
      ParameterCurve.mk [⟨0, 1, 0, 7, 0⟩, ⟨1, 2, 7, 9, 0⟩] := by
    show from_levels [0, 7, 9] 2 = _
    rw [from_levels]
    norm_num
    rw [from_levels_and_durations]
    norm_num
    rw [show List.replicate 2 (1:ℝ) = [1, 1] from rfl,
      show List.replicate 2 (0:ℝ) = [0, 0] from rfl,
      construct_segments_list_cons, construct_segments_list_cons,
      construct_segments_list_single]
    norm_num
  have hval_dec : (ParameterCurve.mk [⟨0, 1, 0, 7, 0⟩, ⟨1, 2, 7, 9, 0⟩]).value_at (1/2) =
      7/2 := by
    rw [ParameterCurve.value_at, if_neg (by norm_num)]
    show ParameterCurve.value_at_scan _ _ [⟨1, 2, 7, 9, 0⟩, ⟨0, 1, 0, 7, 0⟩] = 7/2
    rw [ParameterCurve.value_at_scan, if_neg (by norm_num),
      ParameterCurve.value_at_scan, if_pos (by norm_num),
      value_at_interior_mk 0 1 0 7 0 (1/2) (by norm_num) (by norm_num),
      if_pos (by norm_num)]
    norm_num
  have hval_orig : c4disc.value_at (1/2) = 5/2 := by
    rw [ParameterCurve.value_at, if_neg (by norm_num)]
    show ParameterCurve.value_at_scan _ _ [⟨1, 2, 7, 9, 0⟩, ⟨0, 1, 0, 5, 0⟩] = 5/2
    rw [ParameterCurve.value_at_scan, if_neg (by norm_num),
      ParameterCurve.value_at_scan, if_pos (by norm_num),
      value_at_interior_mk 0 1 0 5 0 (1/2) (by norm_num) (by norm_num),
      if_pos (by norm_num)]
    norm_num
  rw [hjson, hdecode, hval_dec, hval_orig]
  norm_num

/-- Witness for `C4_serialization_round_trip` at the level-contiguous
curve `[(0,1, 0→5), (1,2, 5→9)]` and `x = 1/2`. -/
theorem C4_serialization_round_trip_witness :
    (ParameterCurve.mk [⟨0, 1, 0, 5, 0⟩, ⟨1, 2, 5, 9, 0⟩]).Invariant ∧
      levelContiguous (ParameterCurve.mk [⟨0, 1, 0, 5, 0⟩, ⟨1, 2, 5, 9, 0⟩]).segments ∧
      ((0:ℝ) ≤ 1/2 ∧ (1/2 : ℝ) ≤ (ParameterCurve.mk [⟨0, 1, 0, 5, 0⟩, ⟨1, 2, 5, 9, 0⟩]).length ∧
      (from_list (ParameterCurve.mk [⟨0, 1, 0, 5, 0⟩, ⟨1, 2, 5, 9, 0⟩]).to_json).value_at (1/2) =
        (ParameterCurve.mk [⟨0, 1, 0, 5, 0⟩, ⟨1, 2, 5, 9, 0⟩]).value_at (1/2)) := by
  have hinv : (ParameterCurve.mk [⟨0, 1, 0, 5, 0⟩, ⟨1, 2, 5, 9, 0⟩]).Invariant :=
    ⟨by simp, by norm_num [chainFrom]⟩
  have hlev : levelContiguous (ParameterCurve.mk [⟨0, 1, 0, 5, 0⟩, ⟨1, 2, 5, 9, 0⟩]).segments := by
    show (5:ℝ) = 5 ∧ levelContiguous _
    exact ⟨rfl, trivial⟩
  have hlen : (ParameterCurve.mk [⟨0, 1, 0, 5, 0⟩, ⟨1, 2, 5, 9, 0⟩]).length = 2 := rfl
  exact ⟨hinv, hlev, by norm_num, by rw [hlen]; norm_num,
    C4_serialization_round_trip _ hinv hlev (1/2) (by norm_num) (by rw [hlen]; norm_num)⟩

/-- The sampling state of `_split_binary_function_applied_pair`'s
finite-difference scan. -/
structure SampleState where
  split_points : List ℝ
  value : Option ℝ
  first_difference : Option ℝ
  second_difference : Option ℝ

/-- One iteration of the sampling loop (lines 719-741): track first and
second finite differences, recording sign changes as split points. -/
noncomputable def sample_step (f : ℝ → ℝ) (t : ℝ) (st : SampleState) : SampleState :=
  match st.value with
  | none => { st with value := some (f t) }
  | some value =>
      match st.first_difference with
      | none => { st with value := some (f t), first_difference := some (f t - value) }
      | some first_difference =>
          let sp1 := if (f t - value) * first_difference < 0 then st.split_points ++ [t]
            else st.split_points
          let sp2 := match st.second_difference with
            | none => sp1
            | some second_difference =>
                if (f t - value - first_difference) * second_difference < 0 ∧ t ∉ sp1 then
                  sp1 ++ [t]
                else sp1
          { split_points := sp2, value := some (f t),
            first_difference := some (f t - value),
            second_difference := some (f t - value - first_difference) }

/-- The sampled split points of `_split_binary_function_applied_pair`. -/
noncomputable def sample_split_points (in1 in2 : ParameterCurveSegment)
    (binary_function : ℝ → ℝ → ℝ) (resolution : ℕ) : List ℝ :=
  ((List.range resolution).foldl
    (fun st x =>
      sample_step (fun t => binary_function (in1.value_at t) (in2.value_at t))
        (in1.start_time + ((x : ℝ) / (resolution : ℝ)) * in1.duration) st)
    ⟨[], none, none, none⟩).split_points

/-- `ParameterCurveSegment.from_endpoints_and_halfway_level` (the equal
levels branch is dead code in Python, blocked by the preceding assert). -/
noncomputable def ParameterCurveSegment.from_endpoints_and_halfway_level
    (start_time end_time start_level end_level halfway_level : ℝ) : ParameterCurveSegment :=
  if end_level = start_level then ⟨start_time, end_time, start_level, end_level, 0⟩
  else ⟨start_time, end_time, start_level, end_level,
    2 * Real.log (1 / ((halfway_level - start_level) / (end_level - start_level)) - 1)⟩

/-- The fitting `while` loop (lines 746-766), with fuel: fit one segment
per key-point interval when the halfway value is strictly between the
endpoint values, otherwise insert the halfway point and retry the same
interval.  `none` models non-termination. -/
noncomputable def fit_segments_loopF (in1 in2 : ParameterCurveSegment)
    (binary_function : ℝ → ℝ → ℝ) :
    ℕ → List ℝ → ℕ → List ParameterCurveSegment → Option (List ParameterCurveSegment)
  | 0, _, _, _ => none
  | fuel + 1, key_points, i, segments =>
      if i < key_points.length - 1 then
        if min (binary_function (in1.value_at (key_points.getD i 0))
                 (in2.value_at (key_points.getD i 0)))
               (binary_function (in1.value_at (key_points.getD (i + 1) 0))
                 (in2.value_at (key_points.getD (i + 1) 0))) <
             binary_function
               (in1.value_at ((key_points.getD i 0 + key_points.getD (i + 1) 0) / 2))
               (in2.value_at ((key_points.getD i 0 + key_points.getD (i + 1) 0) / 2)) ∧
           binary_function
               (in1.value_at ((key_points.getD i 0 + key_points.getD (i + 1) 0) / 2))
               (in2.value_at ((key_points.getD i 0 + key_points.getD (i + 1) 0) / 2)) <
             max (binary_function (in1.value_at (key_points.getD i 0))
                   (in2.value_at (key_points.getD i 0)))
                 (binary_function (in1.value_at (key_points.getD (i + 1) 0))
                   (in2.value_at (key_points.getD (i + 1) 0))) then
          fit_segments_loopF in1 in2 binary_function fuel key_points (i + 1)
            (segments ++ [ParameterCurveSegment.from_endpoints_and_halfway_level
              (key_points.getD i 0) (key_points.getD (i + 1) 0)
              (binary_function (in1.value_at (key_points.getD i 0))
                (in2.value_at (key_points.getD i 0)))
              (binary_function (in1.value_at (key_points.getD (i + 1) 0))
                (in2.value_at (key_points.getD (i + 1) 0)))
              (binary_function
                (in1.value_at ((key_points.getD i 0 + key_points.getD (i + 1) 0) / 2))
                (in2.value_at ((key_points.getD i 0 + key_points.getD (i + 1) 0) / 2)))])
        else
          fit_segments_loopF in1 in2 binary_function fuel
            (key_points.insertIdx (i + 1)
              ((key_points.getD i 0 + key_points.getD (i + 1) 0) / 2)) i segments
      else some segments

/-- Result of `_split_binary_function_applied_pair`: a single fitted
segment, a curve of fitted pieces, the range-mismatch `ValueError`, or
non-termination of the fitting loop. -/
inductive CombineResult where
  | seg (s : ParameterCurveSegment)
  | curve (c : ParameterCurve)
  | rangeError
  | diverged

/-- `ParameterCurveSegment._split_binary_function_applied_pair`. -/
noncomputable def split_binary_function_applied_pair (input1 input2 : ParameterCurveSegment)
    (binary_function : ℝ → ℝ → ℝ) (resolution : ℕ) (fuel : ℕ) : CombineResult :=
  if input2.start_time = input1.start_time ∧ input2.end_time = input1.end_time then
    match fit_segments_loopF input1 input2 binary_function fuel
      (input1.start_time ::
        (sample_split_points input1 input2 binary_function resolution ++ [input1.end_time]))
      0 [] with
    | none => CombineResult.diverged
    | some [s] => CombineResult.seg s
    | some segments => CombineResult.curve ⟨segments⟩
  else CombineResult.rangeError

/-- The sampling-state invariant along a constant combined function. -/
def SampleConstInv (C : ℝ) (st : SampleState) : Prop :=
  st.split_points = [] ∧ (st.value = none ∨ st.value = some C) ∧
    (st.first_difference = none ∨ st.first_difference = some 0) ∧
    (st.second_difference = none ∨ st.second_difference = some 0)

lemma sample_step_const {f : ℝ → ℝ} {C : ℝ} (hf : ∀ t, f t = C) (t : ℝ)
    {st : SampleState} (h : SampleConstInv C st) : SampleConstInv C (sample_step f t st) := by
  obtain ⟨hsp, hv, hfd, hsd⟩ := h
  obtain ⟨sp, v, fd, sd⟩ := st
  simp only at hsp hv hfd hsd
  subst hsp
  rcases hv with rfl | rfl
  · exact ⟨rfl, Or.inr (by simp [sample_step, hf]), hfd, hsd⟩
  · rcases hfd with rfl | rfl
    · exact ⟨rfl, Or.inr (by simp [sample_step, hf]),
        Or.inr (by simp [sample_step, hf]), hsd⟩
    · rcases hsd with rfl | rfl
      · refine ⟨?_, Or.inr ?_, Or.inr ?_, Or.inr ?_⟩ <;>
          simp [sample_step, hf]
      · refine ⟨?_, Or.inr ?_, Or.inr ?_, Or.inr ?_⟩ <;>
          simp [sample_step, hf]

lemma sample_split_points_const {in1 in2 : ParameterCurveSegment}
    {binary_function : ℝ → ℝ → ℝ} {C : ℝ}
    (hf : ∀ t, binary_function (in1.value_at t) (in2.value_at t) = C) (resolution : ℕ) :
    sample_split_points in1 in2 binary_function resolution = [] := by
  have hfold : ∀ (l : List ℕ) (st : SampleState), SampleConstInv C st →
      SampleConstInv C (l.foldl
        (fun st x =>
          sample_step (fun t => binary_function (in1.value_at t) (in2.value_at t))
            (in1.start_time + ((x : ℝ) / (resolution : ℝ)) * in1.duration) st) st) := by
    intro l
    induction l with
    | nil => intro st h; exact h
    | cons x xs ih =>
        intro st h
        exact ih _ (sample_step_const hf _ h)
  exact (hfold (List.range resolution) ⟨[], none, none, none⟩
    ⟨rfl, Or.inl rfl, Or.inl rfl, Or.inl rfl⟩).1

lemma fit_segments_loopF_const_none {in1 in2 : ParameterCurveSegment}
    {binary_function : ℝ → ℝ → ℝ} {C : ℝ}
    (hf : ∀ t, binary_function (in1.value_at t) (in2.value_at t) = C) :
    ∀ (fuel : ℕ) (key_points : List ℝ) (i : ℕ) (segments : List ParameterCurveSegment),
      i < key_points.length - 1 →
      fit_segments_loopF in1 in2 binary_function fuel key_points i segments = none := by
  intro fuel
  induction fuel with
  | zero => intros; rfl
  | succ fuel ih =>
      intro kp i segs hi
      rw [fit_segments_loopF, if_pos hi, if_neg (by rw [hf, hf, hf]; simp)]
      refine ih _ i segs ?_
      rw [List.length_insertIdx _ _ (by omega)]
      omega

/-- The linear ramp `0 → 1` on `[0, 1]`. -/
noncomputable def c1segA : ParameterCurveSegment := ⟨0, 1, 0, 1, 0⟩

/-- The linear ramp `1 → 0` on `[0, 1]`; `c1segA + c1segB` is the constant
function `1`. -/
noncomputable def c1segB : ParameterCurveSegment := ⟨0, 1, 1, 0, 0⟩

lemma c1_sum_const : ∀ t, c1segA.value_at t + c1segB.value_at t = 1 := by
  intro t
  have hA : c1segA = ⟨0, 1, 0, 1, 0⟩ := rfl
  have hB : c1segB = ⟨0, 1, 1, 0, 0⟩ := rfl
  rcases le_or_lt t 0 with h0 | h0
  · rw [hA, hB,
      ParameterCurveSegment.value_at_clip_low (s := ⟨0, 1, 0, 1, 0⟩) h0 (by norm_num; linarith),
      ParameterCurveSegment.value_at_clip_low (s := ⟨0, 1, 1, 0, 0⟩) h0 (by norm_num; linarith)]
    norm_num
  rcases le_or_lt 1 t with h1 | h1
  · rw [hA, hB,
      ParameterCurveSegment.value_at_clip_high (s := ⟨0, 1, 0, 1, 0⟩) h1,
      ParameterCurveSegment.value_at_clip_high (s := ⟨0, 1, 1, 0, 0⟩) h1]
    norm_num
  · rw [hA, hB, value_at_interior_mk 0 1 0 1 0 t h0 h1, value_at_interior_mk 0 1 1 0 0 t h0 h1,
      if_pos (by norm_num), if_pos (by norm_num)]
    ring

/-- **C1.** The claim that combining two segments always terminates is
contradicted by the code: adding the valid linear segments `0→1` and
`1→0` over the identical range `[0,1]` makes the combined function
constant, the sampled finite differences record no split points, and the
fitting loop — whose strict-betweenness check `min < halfway < max` can
never hold for a constant function — inserts midpoints forever.  For
every fuel bound the model reports divergence. -/
theorem C1_combination_nonterminating (fuel : ℕ) :
    split_binary_function_applied_pair c1segA c1segB (fun a b => a + b) 60 fuel =
      CombineResult.diverged := by
  have hconst : ∀ t, (fun a b => a + b) (c1segA.value_at t) (c1segB.value_at t) = 1 :=
    c1_sum_const
  rw [split_binary_function_applied_pair, if_pos ⟨rfl, rfl⟩,
    sample_split_points_const hconst 60,
    fit_segments_loopF_const_none hconst fuel _ 0 [] (by norm_num)]
